import Mathlib

/-!
Verification of the automaton execution and transformation engine of
`src/app.js`: the multi-tape Turing machine stepper, the finite-automaton
evaluator, the transformation pipeline (unit-label expansion, epsilon
closure, subset construction, partition-refinement minimization) and the
pushdown-automaton evaluator.

Shallow embedding conventions:
* JavaScript `Map` objects are embedded as association lists
  (`List (key × value)`) with JS `Map.set` / `Map.delete` / `Map.get`
  semantics (`jsSet`, `jsDelete`, `jsGet`), preserving insertion order.
* String-encoded map keys such as `` `${state}|${symbols}` `` are embedded
  as structured pairs; the JS code's separator characters make the
  encoding injective for the inputs the engine receives.
* JS `Set` objects whose iteration order is irrelevant to every produced
  result are embedded as `Finset String`.
* Unbounded `while` loops are embedded as fuel-indexed recursions; each
  loop is invoked with fuel that is provably at least the number of
  iterations the JS loop performs (each JS iteration strictly decreases
  the corresponding measure), so the fuel-exhaustion branch is never
  taken at the chosen fuel.
* Words are `List Char`; JS `String.length` / indexing count UTF-16
  units, embedded here as character counts (they agree on the
  basic-multilingual-plane inputs the UI produces).
-/

set_option maxRecDepth 4000

/-! ## JS `Map` association lists -/

def jsGet {α β : Type} [DecidableEq α] (m : List (α × β)) (k : α) : Option β :=
  (m.find? (fun p => decide (p.1 = k))).map (·.2)

def jsSet {α β : Type} [DecidableEq α] (m : List (α × β)) (k : α) (v : β) : List (α × β) :=
  if m.any (fun p => decide (p.1 = k)) then
    m.map (fun p => if p.1 = k then (k, v) else p)
  else
    m ++ [(k, v)]

def jsDelete {α β : Type} [DecidableEq α] (m : List (α × β)) (k : α) : List (α × β) :=
  m.filter (fun p => !decide (p.1 = k))

/-! ## Multi-tape Turing machine (`MultiTapeTuringMachine` in `src/app.js`)

A tape is a sparse map from integer position to symbol; a configuration
mirrors the mutable instance fields of the JS class; `tmStep` mirrors
`step()` as a pure function from (model, configuration) to
(configuration, result). -/

structure TMAction where
  writeSymbol : Option String
  move : String
deriving DecidableEq

structure TMRule where
  actions : List TMAction
  nextState : String
deriving DecidableEq

structure TMModel where
  startState : String
  acceptStates : Finset String
  transitions : List ((String × List String) × TMRule)
  tapeCount : Nat
  blankSymbol : String
deriving DecidableEq

structure TMConfig where
  currentState : String
  stepCount : Nat
  halted : Bool
  haltReason : String
  lastTransitionKey : Option (String × List String)
  heads : List Int
  tapes : List (List (Int × String))
deriving DecidableEq

structure TMStepResult where
  status : String
  message : String
deriving DecidableEq

/-- `reset` writes only the non-blank initial symbols of one tape. -/
def tmBuildTape (blank : String) (symbols : List String) : List (Int × String) :=
  symbols.enum.foldl
    (fun tape pv => if pv.2 = blank then tape else jsSet tape (Int.ofNat pv.1) pv.2) []

/-- `reset(inputTapes)` of `MultiTapeTuringMachine`. -/
def tmReset (m : TMModel) (inputTapes : List (List String)) : TMConfig :=
  { currentState := m.startState
    stepCount := 0
    halted := false
    haltReason := ""
    lastTransitionKey := none
    heads := List.replicate m.tapeCount 0
    tapes := (List.range m.tapeCount).map
      (fun i => tmBuildTape m.blankSymbol (inputTapes.getD i [])) }

/-- `read(tapeIndex)`: stored symbol at the head position, blank if absent. -/
def tmRead (m : TMModel) (c : TMConfig) (i : Nat) : String :=
  match jsGet (c.tapes.getD i []) (c.heads.getD i 0) with
  | some s => s
  | none => m.blankSymbol

/-- `write(tapeIndex, symbol)`: writing the blank deletes the entry. -/
def tmWriteTape (blank : String) (tape : List (Int × String)) (head : Int)
    (symbol : String) : List (Int × String) :=
  if symbol = blank then jsDelete tape head else jsSet tape head symbol

/-- The `transition.actions.forEach` body of `step()`: per tape, an optional
write at the current head followed by a head move. -/
def tmApplyActions (blank : String) (actions : List TMAction) (heads : List Int)
    (tapes : List (List (Int × String))) : List Int × List (List (Int × String)) :=
  actions.enum.foldl
    (fun acc ia =>
      let i := ia.1
      let a := ia.2
      let h := acc.1.getD i 0
      let tapes1 :=
        match a.writeSymbol with
        | some s => if s = "" then acc.2 else acc.2.set i (tmWriteTape blank (acc.2.getD i []) h s)
        | none => acc.2
      let heads1 :=
        if a.move = "R" then acc.1.set i (h + 1)
        else if a.move = "L" then acc.1.set i (h - 1)
        else acc.1
      (heads1, tapes1))
    (heads, tapes)

/-- `step()` of `MultiTapeTuringMachine`, checks in source order: already
halted, acceptance before the transition lookup, missing transition,
otherwise apply the actions, advance and re-check acceptance. -/
def tmStep (m : TMModel) (c : TMConfig) : TMConfig × TMStepResult :=
  if c.halted then
    (c, ⟨"halted", if c.haltReason = "" then "La máquina ya está detenida." else c.haltReason⟩)
  else if c.currentState ∈ m.acceptStates then
    ({ c with halted := true, haltReason := "Aceptación." },
      ⟨"accept", "La máquina llegó a un estado de aceptación."⟩)
  else
    let readSymbols := (List.range c.heads.length).map (fun i => tmRead m c i)
    let key := (c.currentState, readSymbols)
    match jsGet m.transitions key with
    | none =>
      ({ c with halted := true, haltReason := "Sin transición aplicable.", lastTransitionKey := none },
        ⟨"halted", "No existe transición para " ++ c.currentState ++ " (" ++
          String.intercalate ", " readSymbols ++ ")."⟩)
    | some rule =>
      let moved := tmApplyActions m.blankSymbol rule.actions c.heads c.tapes
      let c1 : TMConfig :=
        { c with
          lastTransitionKey := some key
          heads := moved.1
          tapes := moved.2
          currentState := rule.nextState
          stepCount := c.stepCount + 1 }
      if rule.nextState ∈ m.acceptStates then
        ({ c1 with halted := true, haltReason := "Aceptación." },
          ⟨"accept", "La máquina aceptó la entrada."⟩)
      else
        (c1, ⟨"running", "Paso ejecutado."⟩)

/-- Sparsity of one tape: no stored entry holds the blank symbol. -/
def tapeSparse (blank : String) (tape : List (Int × String)) : Prop :=
  ∀ p ∈ tape, p.2 ≠ blank

/-- Sparsity of every tape of a configuration. -/
def tmConfigSparse (blank : String) (c : TMConfig) : Prop :=
  ∀ t ∈ c.tapes, tapeSparse blank t

/-! Concrete sample machine used by witnesses. -/

def tmSampleModel : TMModel :=
  { startState := "e0"
    acceptStates := {"ef"}
    transitions :=
      [(("e0", ["1", "#"]), ⟨[⟨none, "S"⟩, ⟨some "1", "R"⟩], "e0"⟩),
       (("e0", ["#", "#"]), ⟨[⟨none, "S"⟩, ⟨none, "S"⟩], "ef"⟩)]
    tapeCount := 2
    blankSymbol := "#" }

def tmSampleAcceptConfig : TMConfig :=
  { currentState := "ef"
    stepCount := 3
    halted := false
    haltReason := ""
    lastTransitionKey := none
    heads := [0, 2]
    tapes := [[(0, "1")], [(1, "1")]] }

def tmSampleHaltedConfig : TMConfig :=
  { currentState := "e0"
    stepCount := 5
    halted := true
    haltReason := "Sin transición aplicable."
    lastTransitionKey := none
    heads := [1, 0]
    tapes := [[(0, "1")], []] }

/-! ## Pushdown automaton (`evaluatePDA` in `src/app.js`)

A configuration is `(state, input position, stack)`, the stack an explicit
list whose *last* element is the top (JS array `push`/`pop` act on the
end). The visited set is keyed by `(state, pos, stack.join(""))` as in the
source. The JS `while (queue.length && steps < maxSteps)` loop is bounded
by `maxSteps = 20000`, embedded as the fuel of `evalPdaLoop`. -/

structure PDATrans where
  state : String
  inputSym : String
  stackTop : String
  nextState : String
  push : String
deriving DecidableEq

structure PDAModel where
  startState : String
  acceptStates : Finset String
  initialStack : String
  transitions : List PDATrans
deriving DecidableEq

structure PDAConfig where
  state : String
  pos : Nat
  stack : List String
deriving DecidableEq

structure PDAResult where
  accepted : Bool
  detail : String
deriving DecidableEq

/-- `cfg.stack.length ? cfg.stack[cfg.stack.length - 1] : "eps"`. -/
def pdaTop (stack : List String) : String :=
  match stack.getLast? with
  | some t => t
  | none => "eps"

/-- A one-character JS string (JS indexing `input[pos]` yields one). -/
def charStr (c : Char) : String := String.mk [c]

/-- The `model.transitions.forEach` body of `evaluatePDA`: if transition `t`
applies to `cfg` (state matches; input symbol is epsilon or equals the
word's symbol at the current position; stack-top pattern is epsilon or
equals the current top), produce the successor configuration: the position
advances only on a non-epsilon input symbol, a non-epsilon stack-top
pattern pops exactly one symbol, and the push string is pushed from its
last character to its first so the first character ends on top. -/
def pdaStepConfig (input : List Char) (cfg : PDAConfig) (t : PDATrans) : Option PDAConfig :=
  if t.state = cfg.state ∧
      (t.inputSym = "eps" ∨ (input.get? cfg.pos).map charStr = some t.inputSym) ∧
      (t.stackTop = "eps" ∨ pdaTop cfg.stack = t.stackTop) then
    some { state := t.nextState
           pos := if t.inputSym = "eps" then cfg.pos else cfg.pos + 1
           stack :=
             (if t.stackTop = "eps" then cfg.stack else cfg.stack.dropLast) ++
               (if t.push = "eps" ∨ t.push = "" then []
                else (t.push.data.map charStr).reverse) }
  else none

/-- All successors of a configuration, in transition-list order. -/
def pdaSuccessors (m : PDAModel) (input : List Char) (cfg : PDAConfig) : List PDAConfig :=
  m.transitions.filterMap (pdaStepConfig input cfg)

/-- The visited-set key `` `${cfg.state}|${cfg.pos}|${cfg.stack.join("")}` ``. -/
def pdaSeenKey (cfg : PDAConfig) : String × Nat × String :=
  (cfg.state, cfg.pos, String.join cfg.stack)

/-- The breadth-first search loop of `evaluatePDA`; the fuel counts the
remaining iterations allowed by `steps < maxSteps`. Both loop exits — fuel
exhausted (step bound reached) and queue exhausted — return the same
non-accepting result, exactly as the single `return` after the JS loop. -/
def evalPdaLoop (m : PDAModel) (input : List Char) :
    Nat → List PDAConfig → Finset (String × Nat × String) → PDAResult
  | 0, _, _ => ⟨false, "No se encontró configuración de aceptación."⟩
  | _ + 1, [], _ => ⟨false, "No se encontró configuración de aceptación."⟩
  | fuel + 1, cfg :: rest, seen =>
    if pdaSeenKey cfg ∈ seen then evalPdaLoop m input fuel rest seen
    else if cfg.pos = input.length ∧ cfg.state ∈ m.acceptStates then
      ⟨true, "Aceptada en " ++ cfg.state ++ "."⟩
    else
      evalPdaLoop m input fuel (rest ++ pdaSuccessors m input cfg)
        (insert (pdaSeenKey cfg) seen)

/-- `evaluatePDA(model, input)`: search from the start configuration with
the fixed `maxSteps = 20000` bound. -/
def evaluatePDA (m : PDAModel) (input : List Char) : PDAResult :=
  evalPdaLoop m input 20000 [{ state := m.startState, pos := 0, stack := [m.initialStack] }] ∅

/-! Concrete sample PDA used by witnesses. -/

def pdaSampleModel : PDAModel :=
  { startState := "q"
    acceptStates := ∅
    initialStack := "Z"
    transitions := [] }

def pdaSampleTrans : PDATrans :=
  { state := "q", inputSym := "a", stackTop := "Z", nextState := "r", push := "XY" }

def pdaSampleModel2 : PDAModel :=
  { startState := "q"
    acceptStates := {"r"}
    initialStack := "Z"
    transitions := [pdaSampleTrans] }

def pdaSampleConfig : PDAConfig := { state := "q", pos := 0, stack := ["Z"] }

/-! ## Finite-automaton evaluator (`evaluateFA` in `src/app.js`)

Breadth-first search over configurations `(state, position)`. The model's
transition map (key `` `${from}|${label}` `` to a set of destinations, in
insertion order) is flattened to a transition list exactly as the source
does before the loop. The result's diagnostic string is presentation; the
embedding returns the search verdict together with the visited set `seen`
of explored configurations. The JS `while (q.length)` loop terminates
because each iteration strictly decreases
`((stateUniv ×ˢ range (|word|+1)) \ seen).card + queue.length`
(a skipped configuration shrinks the queue; a fresh one enters `seen`,
which stays inside `stateUniv ×ˢ range (|word|+1)`); the loop is embedded
with that quantity's initial value as fuel. -/

structure FATrans where
  fromState : String
  label : String
  toState : String
deriving DecidableEq

structure FAModel where
  states : Finset String
  alphabet : Finset String
  startState : String
  acceptStates : Finset String
  transitions : List ((String × String) × List String)
deriving DecidableEq

/-- The `transitionsList` flattening at the top of `evaluateFA`. -/
def faTransitionsList (m : FAModel) : List FATrans :=
  m.transitions.flatMap (fun e => e.2.map (fun d => ⟨e.1.1, e.1.2, d⟩))

/-- JS `word.startsWith(label, pos)`. -/
def jsStartsWith (w : List Char) (label : String) (pos : Nat) : Bool :=
  label.data.isPrefixOf (w.drop pos)

/-- Every state that can appear in a search configuration: the start state
and every transition destination. -/
def faStateUniv (m : FAModel) : Finset String :=
  (faTransitionsList m).foldr (fun t acc => insert t.toState acc) {m.startState}

/-- The `transitionsList.forEach` body: from configuration `cfg`, an
epsilon-labeled transition keeps the position, and a symbol-labeled
transition whose label occurs at the current position (contiguous
substring match) advances the position by the label's length. -/
def faSuccessors (ts : List FATrans) (word : List Char) (cfg : String × Nat) :
    List (String × Nat) :=
  ts.filterMap (fun t =>
    if t.fromState = cfg.1 then
      if t.label = "eps" then some (t.toState, cfg.2)
      else if jsStartsWith word t.label cfg.2 then
        some (t.toState, cfg.2 + t.label.data.length)
      else none
    else none)

/-- The breadth-first `while (q.length)` loop of `evaluateFA`: dequeue,
skip if visited, otherwise record the configuration as explored, stop with
acceptance if it is at the end of the word in an accepting state, else
enqueue its successors. -/
def evalFaLoop (ts : List FATrans) (accept : Finset String) (word : List Char) :
    Nat → List (String × Nat) → Finset (String × Nat) → Bool × Finset (String × Nat)
  | 0, _, seen => (false, seen)
  | _ + 1, [], seen => (false, seen)
  | fuel + 1, cfg :: rest, seen =>
    if cfg ∈ seen then evalFaLoop ts accept word fuel rest seen
    else
      let seen1 := insert cfg seen
      if cfg.2 = word.length ∧ cfg.1 ∈ accept then (true, seen1)
      else evalFaLoop ts accept word fuel (rest ++ faSuccessors ts word cfg) seen1

/-- `evaluateFA(model, word)`: search from `(startState, 0)`. The source
loop marks a configuration visited only at dequeue time, so the queue may
hold duplicates and the iteration count is not bounded by the number of
configurations alone. Each iteration either discards an already-visited
configuration (the measure `|configs \ visited| * (|transitionsList| + 1) +
|queue|` drops by 1) or marks a fresh configuration visited while
enqueueing at most `|transitionsList|` successors (the measure drops by at
least 2), so the fuel below strictly exceeds the measure's initial value
and the embedded loop never stops early — `evalFaLoop_fuel_eq` proves the
result is the same for every fuel above the measure. -/
def evaluateFA (m : FAModel) (word : List Char) : Bool × Finset (String × Nat) :=
  evalFaLoop (faTransitionsList m) m.acceptStates word
    ((faStateUniv m ×ˢ Finset.range (word.length + 1)).card *
      ((faTransitionsList m).length + 1) + 2)
    [(m.startState, 0)] ∅

/-! ## Unit-label expansion (`expandLabelsToUnitNFA` in `src/app.js`)

The derived automaton's transition map (key `` `${from}|${symbol}` `` to a
`Set` of destinations) is built through `addTransition`; multi-character
labels are expanded into chains through freshly numbered `__auxN` states.
-/

/-- `normalizeEpsilonLabel`: trims, and maps the empty string, `eps` /
`epsilon` in any letter case, and `ε` to the canonical `"eps"`. -/
def normalizeEpsilonLabel (labelRaw : String) : String :=
  if labelRaw.trim = "" ∨ labelRaw.trim.toLower = "eps" ∨ labelRaw.trim.toLower = "epsilon" ∨
      labelRaw.trim = "ε" then "eps"
  else labelRaw.trim

structure NFAUnit where
  states : Finset String
  alphabet : Finset String
  startState : String
  acceptStates : Finset String
  transitions : List ((String × String) × Finset String)
deriving DecidableEq

/-- The mutable locals of `expandLabelsToUnitNFA`: the growing state set,
alphabet, transition map and the fresh-name counter `aux`. -/
structure ExpandState where
  states : Finset String
  alphabet : Finset String
  transitions : List ((String × String) × Finset String)
  aux : Nat
deriving DecidableEq

/-- `` `__aux${k}` ``, the fresh intermediate-state naming scheme. -/
def auxName (k : Nat) : String := "__aux" ++ toString k

/-- `addTransition(from, symbol, to)`: create the key's destination set if
missing, add the destination, and record a non-epsilon symbol in the
alphabet. -/
def addTransitionNFA (st : ExpandState) (f sym d : String) : ExpandState :=
  { st with
    transitions :=
      match jsGet st.transitions (f, sym) with
      | some dset => jsSet st.transitions (f, sym) (insert d dset)
      | none => st.transitions ++ [((f, sym), {d})]
    alphabet := if sym = "eps" then st.alphabet else insert sym st.alphabet }

/-- The inner `for` loop expanding one multi-character label into a chain:
each character becomes a single-character transition; every intermediate
state is a fresh `__auxN`, the last target is the original destination. -/
def expandChain (st : ExpandState) (prev : String) (chars : List Char) (d : String) :
    ExpandState :=
  match chars with
  | [] => st
  | [c] => addTransitionNFA { st with states := insert d st.states } prev (charStr c) d
  | c :: rest =>
    let nx := auxName st.aux
    expandChain
      (addTransitionNFA { st with states := insert nx st.states, aux := st.aux + 1 }
        prev (charStr c) nx)
      nx rest d

/-- One destination of one model entry: epsilon and single-character
labels pass through; longer labels are expanded into a chain. -/
def expandDest (st : ExpandState) (f : String) (label : String) (d : String) : ExpandState :=
  if label = "eps" then addTransitionNFA st f "eps" d
  else if label.length ≤ 1 then addTransitionNFA st f label d
  else expandChain st f label.data d

/-- The `destSet.forEach` loop for one `model.transitions` entry. -/
def expandEntry (st : ExpandState) (f : String) (labelRaw : String)
    (dests : List String) : ExpandState :=
  dests.foldl (fun st d => expandDest st f (normalizeEpsilonLabel labelRaw) d) st

/-- `expandLabelsToUnitNFA(model)`. -/
def expandLabelsToUnitNFA (m : FAModel) : NFAUnit :=
  let stF := m.transitions.foldl (fun st e => expandEntry st e.1.1 e.1.2 e.2)
    { states := m.states, alphabet := ∅, transitions := [], aux := 0 }
  { states := stF.states
    alphabet := stF.alphabet
    startState := m.startState
    acceptStates := m.acceptStates
    transitions := stF.transitions }

/-- Membership of one flattened transition `(from, symbol, to)` in a
destination-set transition map. -/
def memTransB (ts : List ((String × String) × Finset String)) (f sym d : String) : Bool :=
  match jsGet ts (f, sym) with
  | some dset => d ∈ dset
  | none => false

/-- `IsChainVia ts f chars d`: the map `ts` contains a chain of
single-character transitions spelling `chars` from `f` to `d` whose
intermediate states are all fresh `__auxN` names. -/
def IsChainVia (ts : List ((String × String) × Finset String)) :
    String → List Char → String → Prop
  | f, [], d => f = d
  | f, c :: rest, d =>
    ∃ mid, memTransB ts f (charStr c) mid = true ∧
      (rest = [] → mid = d) ∧
      (rest ≠ [] → ∃ k, mid = auxName k) ∧
      IsChainVia ts mid rest d

/-! Concrete sample FA model used by witnesses (the repository's own
`loadFaExample`). -/

def faSampleModel : FAModel :=
  { states := {"q0", "q1", "q2", "q3", "q4"}
    alphabet := {"a", "b"}
    startState := "q0"
    acceptStates := {"q4"}
    transitions :=
      [(("q0", "eps"), ["q1"]),
       (("q1", "ab"), ["q2"]),
       (("q1", "a"), ["q3"]),
       (("q3", "b"), ["q4"]),
       (("q2", "eps"), ["q4"])] }

/-! ## A kernel-reducible sort for canonical set representations

`[...set].sort()` in JS sorts strings lexicographically by code units.
The embedding uses an insertion sort over a structural character-list
comparator (so concrete instances evaluate inside the kernel); on a set
of distinct strings it produces the same sorted list. -/

/-- Lexicographic comparison of character lists by code point. -/
def charListLe : List Char → List Char → Bool
  | [], _ => true
  | _ :: _, [] => false
  | c :: cs, d :: ds =>
    if c.toNat < d.toNat then true
    else if d.toNat < c.toNat then false
    else charListLe cs ds

/-- Lexicographic `≤` on strings. -/
def strLeB (a b : String) : Bool := charListLe a.data b.data

/-- Sorted insert. -/
def insertSorted (x : String) : List String → List String
  | [] => [x]
  | y :: rest => if strLeB x y then x :: y :: rest else y :: insertSorted x rest

instance : LeftCommutative insertSorted := ⟨by
  have hchar : ∀ c d : Char, c.toNat = d.toNat → c = d := by
    intro c d h
    exact (StrictMono.injective (fun a b h => h) : Function.Injective Char.toNat) h
  have htot : ∀ a b : List Char, charListLe a b = true ∨ charListLe b a = true := by
    intro a
    induction a with
    | nil => intro b; left; rfl
    | cons c cs ih =>
      intro b
      cases b with
      | nil => right; rfl
      | cons d ds =>
        by_cases h1 : c.toNat < d.toNat
        · left; simp [charListLe, h1]
        · by_cases h2 : d.toNat < c.toNat
          · right; simp [charListLe, h1, h2]
          · rcases ih ds with h | h
            · left; simp [charListLe, h1, h2, h]
            · right; simp [charListLe, h1, h2, h]
  have hanti : ∀ a b : List Char, charListLe a b = true → charListLe b a = true → a = b := by
    intro a
    induction a with
    | nil =>
      intro b h1 h2
      cases b with
      | nil => rfl
      | cons d ds => exact absurd h2 (by simp [charListLe])
    | cons c cs ih =>
      intro b h1 h2
      cases b with
      | nil => exact absurd h1 (by simp [charListLe])
      | cons d ds =>
        by_cases hlt1 : c.toNat < d.toNat
        · exact absurd h2 (by simp [charListLe, hlt1, Nat.lt_asymm hlt1])
        · by_cases hlt2 : d.toNat < c.toNat
          · exact absurd h1 (by simp [charListLe, hlt1, hlt2])
          · have hce : c = d := hchar c d (by omega)
            subst hce
            have h1e : charListLe cs ds = true := by
              simpa [charListLe, hlt1] using h1
            have h2e : charListLe ds cs = true := by
              simpa [charListLe, hlt1] using h2
            rw [ih ds h1e h2e]
  have htrans : ∀ u v w : List Char, charListLe u v = true →
      charListLe v w = true → charListLe u w = true := by
    intro u
    induction u with
    | nil => intro v w _ _; rfl
    | cons cu cus ihu =>
      intro v w huv hvw
      cases v with
      | nil => exact absurd huv (by simp [charListLe])
      | cons cv cvs =>
        cases w with
        | nil => exact absurd hvw (by simp [charListLe])
        | cons cw cws =>
          by_cases h1 : cu.toNat < cv.toNat
          · by_cases h2 : cv.toNat < cw.toNat
            · simp [charListLe, show cu.toNat < cw.toNat by omega]
            · by_cases h3 : cw.toNat < cv.toNat
              · exact absurd hvw (by simp [charListLe, h2, h3])
              · have : cv.toNat = cw.toNat := by omega
                simp [charListLe, show cu.toNat < cw.toNat by omega]
          · by_cases h1b : cv.toNat < cu.toNat
            · exact absurd huv (by simp [charListLe, h1, h1b])
            · by_cases h2 : cv.toNat < cw.toNat
              · simp [charListLe, show cu.toNat < cw.toNat by omega]
              · by_cases h3 : cw.toNat < cv.toNat
                · exact absurd hvw (by simp [charListLe, h2, h3])
                · have he1 : charListLe cus cvs = true := by
                    simpa [charListLe, h1, h1b] using huv
                  have he2 : charListLe cvs cws = true := by
                    simpa [charListLe, h2, h3] using hvw
                  have h4 : ¬ cu.toNat < cw.toNat := by omega
                  have h5 : ¬ cw.toNat < cu.toNat := by omega
                  simp [charListLe, h4, h5, ihu cvs cws he1 he2]
  have hstot : ∀ a b : String, strLeB a b = true ∨ strLeB b a = true :=
    fun a b => htot a.data b.data
  have hsanti : ∀ a b : String, strLeB a b = true → strLeB b a = true → a = b :=
    fun a b h1 h2 => String.ext (hanti a.data b.data h1 h2)
  have hstrans : ∀ a b c : String, strLeB a b = true → strLeB b c = true →
      strLeB a c = true :=
    fun a b c h1 h2 => htrans a.data b.data c.data h1 h2
  intro a b l
  induction l with
  | nil =>
    show insertSorted a (insertSorted b []) = insertSorted b (insertSorted a [])
    by_cases hab : strLeB a b = true
    · by_cases hba : strLeB b a = true
      · rw [hsanti a b hab hba]
      · simp [insertSorted, hab, hba]
    · have hba : strLeB b a = true := (hstot a b).resolve_left hab
      simp [insertSorted, hab, hba]
  | cons y rest ih =>
    show insertSorted a (insertSorted b (y :: rest)) =
      insertSorted b (insertSorted a (y :: rest))
    by_cases hby : strLeB b y = true
    · by_cases hay : strLeB a y = true
      · by_cases hab : strLeB a b = true
        · by_cases hba : strLeB b a = true
          · rw [hsanti a b hab hba]
          · simp [insertSorted, hby, hay, hab, hba]
        · have hba : strLeB b a = true := (hstot a b).resolve_left hab
          simp [insertSorted, hby, hay, hab, hba]
      · have hab : ¬ strLeB a b = true := fun hcon => hay (hstrans a b y hcon hby)
        simp [insertSorted, hby, hay, hab]
    · by_cases hay : strLeB a y = true
      · have hba : ¬ strLeB b a = true := fun hcon => hby (hstrans b a y hcon hay)
        simp [insertSorted, hby, hay, hba]
      · simp [insertSorted, hby, hay, ih]⟩

/-- The canonical sorted member list of a set of states. -/
def finSortedList (S : Finset String) : List String :=
  Multiset.foldr insertSorted [] S.val

/-! ## Epsilon closure (`epsilonClosure` in `src/app.js`)

Worklist closure: start from the input set, repeatedly pop a state and add
its unvisited epsilon-destinations to both the closure and the stack. The
JS array stack pushes/pops at the end; it is embedded head-first (the list
head is the stack top). The `forEach` over a destination `Set` is folded
in sorted order — the resulting closure set does not depend on that order.
Each JS iteration strictly decreases
`((epsDestUniv T \ closure).card + stack.length)`, the fuel below. -/

/-- `transitions.get(`state|eps`) || new Set()`. -/
def epsDests (T : List ((String × String) × Finset String)) (s : String) : Finset String :=
  match jsGet T (s, "eps") with
  | some dset => dset
  | none => ∅

/-- Union of all destination sets of the transition map: every state the
closure loop can ever insert. -/
def epsDestUniv (T : List ((String × String) × Finset String)) : Finset String :=
  T.foldr (fun e acc => e.2 ∪ acc) ∅

/-- The `next.forEach` body: absorb each unvisited destination into the
closure and push it on the stack. -/
def epsAbsorb (closure : Finset String) (stack : List String) (elems : List String) :
    Finset String × List String :=
  elems.foldl (fun acc n => if n ∈ acc.1 then acc else (insert n acc.1, n :: acc.2))
    (closure, stack)

/-- The `while (stack.length)` loop of `epsilonClosure`. -/
def epsClosureLoop (T : List ((String × String) × Finset String)) :
    Nat → Finset String → List String → Finset String
  | 0, closure, _ => closure
  | _ + 1, closure, [] => closure
  | fuel + 1, closure, s :: stack =>
    let a := epsAbsorb closure stack (finSortedList (epsDests T s))
    epsClosureLoop T fuel a.1 a.2

/-- `epsilonClosure(transitions, inputStates)`: closure and stack both
start as the input set; the fuel is one more than the initial value of the
strictly decreasing measure, so the embedded loop always drains the
stack. -/
def epsilonClosure (T : List ((String × String) × Finset String)) (S : Finset String) :
    Finset String :=
  epsClosureLoop T ((epsDestUniv T \ S).card + S.card + 1) S (finSortedList S)

/-! ## Subset construction (`determinizeNFA` in `src/app.js`)

DFA states are canonical names of subsets of NFA states: sorted member
list joined with `&`, the empty subset named `∅`. The worklist discovers
subsets breadth-first; each dequeued subset gets, per alphabet symbol, the
epsilon-closed move set as (possibly new) successor. Each JS iteration
strictly decreases `((detKeyUniv \ seen).card + queue.length)` — a
dequeue costs one, and every enqueue is paired with a fresh key entering
`seen`, which stays inside the key universe — so the loop is embedded
with fuel one more than that measure's initial value. -/

/-- `[...set].sort().join("&")`, written as an explicit fold. -/
def joinAmp : List String → String
  | [] => ""
  | [x] => x
  | x :: rest => x ++ "&" ++ joinAmp rest

/-- `setKey(set)`: sorted members joined with `&`, or `∅` when falsy. -/
def setKey (S : Finset String) : String :=
  if joinAmp (finSortedList S) = "" then "∅" else joinAmp (finSortedList S)

/-- The move set: union of `transitions.get(`state|symbol`)` over the
members of the subset. -/
def nfaMove (T : List ((String × String) × Finset String)) (S : Finset String)
    (a : String) : Finset String :=
  S.biUnion (fun s =>
    match jsGet T (s, a) with
    | some dset => dset
    | none => ∅)

structure DFAModel where
  states : Finset String
  alphabet : Finset String
  startState : String
  acceptStates : Finset String
  transitions : List ((String × String) × String)
deriving DecidableEq

/-- The mutable locals of the `determinizeNFA` worklist loop, plus `adds`,
the subsets enqueued while processing the current subset. -/
structure DetAcc where
  trans : List ((String × String) × String)
  seen : Finset String
  statesMap : List (String × Finset String)
  adds : List (Finset String)
deriving DecidableEq

/-- The `alphabet.forEach` body for one symbol: record the transition to
the epsilon-closed move set; if its key is new, mark it seen, store the
subset and enqueue it. -/
def detSym (T : List ((String × String) × Finset String)) (currentSet : Finset String)
    (acc : DetAcc) (a : String) : DetAcc :=
  let targetSet := epsilonClosure T (nfaMove T currentSet a)
  let targetKey := setKey targetSet
  let acc1 := { acc with trans := jsSet acc.trans (setKey currentSet, a) targetKey }
  if targetKey ∈ acc1.seen then acc1
  else
    { acc1 with
      seen := insert targetKey acc1.seen
      statesMap := acc1.statesMap ++ [(targetKey, targetSet)]
      adds := acc1.adds ++ [targetSet] }

/-- Processing one dequeued subset: all alphabet symbols in order. -/
def detStep (T : List ((String × String) × Finset String))
    (alphabetList : List String) (currentSet : Finset String) (acc : DetAcc) : DetAcc :=
  alphabetList.foldl (detSym T currentSet) acc

/-- The `while (queue.length)` loop of `determinizeNFA`. -/
def detLoop (T : List ((String × String) × Finset String)) (alphabetList : List String) :
    Nat → List (Finset String) → DetAcc → DetAcc
  | 0, _, acc => acc
  | _ + 1, [], acc => acc
  | fuel + 1, currentSet :: rest, acc =>
    let acc1 := detStep T alphabetList currentSet { acc with adds := [] }
    detLoop T alphabetList fuel (rest ++ acc1.adds) acc1

/-- `[...nfaUnit.alphabet].filter((a) => a !== "eps")` (in sorted order;
the alphabet is a set, its iteration order does not affect any result
set). -/
def detAlphabetList (nfaU : NFAUnit) : List String :=
  (finSortedList nfaU.alphabet).filter (fun a => a ≠ "eps")

/-- The DFA start subset: epsilon closure of the NFA start state. -/
def detStartSet (nfaU : NFAUnit) : Finset String :=
  epsilonClosure nfaU.transitions {nfaU.startState}

/-- Every NFA state a discovered subset can contain: the start state and
every transition destination. -/
def nfaStateUniv (nfaU : NFAUnit) : Finset String :=
  insert nfaU.startState (epsDestUniv nfaU.transitions)

/-- The canonical names of all subsets of `nfaStateUniv`: the universe the
`seen` key set grows inside (used only to bound the loop). -/
def detKeyUniv (nfaU : NFAUnit) : Finset String :=
  (nfaStateUniv nfaU).powerset.image setKey

/-- The finished worklist state of `determinizeNFA`. -/
def determinizeAcc (nfaU : NFAUnit) : DetAcc :=
  detLoop nfaU.transitions (detAlphabetList nfaU)
    ((detKeyUniv nfaU \ {setKey (detStartSet nfaU)}).card + 2)
    [detStartSet nfaU]
    { trans := []
      seen := {setKey (detStartSet nfaU)}
      statesMap := [(setKey (detStartSet nfaU), detStartSet nfaU)]
      adds := [] }

/-- `determinizeNFA(nfaUnit)`: the subset-construction DFA. A subset is
accepting iff it contains an NFA accepting state. -/
def determinizeNFA (nfaU : NFAUnit) : DFAModel :=
  let acc := determinizeAcc nfaU
  { states := (acc.statesMap.map (·.1)).toFinset
    alphabet := (detAlphabetList nfaU).toFinset
    startState := setKey (detStartSet nfaU)
    acceptStates :=
      ((acc.statesMap.filter (fun e => decide (∃ s ∈ e.2, s ∈ nfaU.acceptStates))).map
        (·.1)).toFinset
    transitions := acc.trans }

/-! Concrete sample NFA (unit labels) used by witnesses. -/

def detSampleNFA : NFAUnit :=
  { states := {"q0", "q1"}
    alphabet := {"a", "b"}
    startState := "q0"
    acceptStates := {"q1"}
    transitions := [(("q0", "a"), {"q1"})] }

/-! ## Partition-refinement minimization (`minimizeDFA` in `src/app.js`)

First a breadth-first restriction to the states reachable from the start
state (a target that is falsy — the empty string — is skipped by the JS
truthiness test, mirrored here); then refinement of the initial
accepting/non-accepting partition by transition signatures over the
current partition, until a pass produces no split; finally each block
becomes one state named by its sorted member list joined with `_`.
The reachability loop strictly decreases
`((reachTargets \ reachable).card + queue.length)` per iteration and each
splitting pass strictly enlarges the partition, which a partition of the
reachable set bounds by its cardinality — the fuels below. -/

/-- Every transition target (the only states the BFS can ever add). -/
def reachTargets (T : List ((String × String) × String)) : Finset String :=
  T.foldr (fun e acc => insert e.2 acc) ∅

/-- The `alphabet.forEach` body of the reachability loop: absorb each
present, non-falsy, unvisited target; enqueue at the back. -/
def reachAbsorb (reach : Finset String) (queue : List String) (elems : List String) :
    Finset String × List String :=
  elems.foldl (fun acc n => if n ∈ acc.1 then acc else (insert n acc.1, acc.2 ++ [n]))
    (reach, queue)

/-- The targets of one dequeued state over the alphabet: `transitions.get`
per symbol, dropping missing and falsy (empty-string) values. -/
def reachNexts (T : List ((String × String) × String)) (A : List String)
    (s : String) : List String :=
  A.filterMap (fun a =>
    match jsGet T (s, a) with
    | some n => if n = "" then none else some n
    | none => none)

/-- The `while (queue.length)` reachability loop of `minimizeDFA`. -/
def reachLoop (T : List ((String × String) × String)) (A : List String) :
    Nat → Finset String → List String → Finset String
  | 0, reach, _ => reach
  | _ + 1, reach, [] => reach
  | fuel + 1, reach, s :: rest =>
    let p := reachAbsorb reach rest (reachNexts T A s)
    reachLoop T A fuel p.1 p.2

/-- The set of states reachable from the start state, as `minimizeDFA`
computes it. -/
def reachableStates (dfa : DFAModel) : Finset String :=
  reachLoop dfa.transitions (finSortedList dfa.alphabet)
    ((reachTargets dfa.transitions \ {dfa.startState}).card + 2)
    {dfa.startState} [dfa.startState]

/-- `partitions.findIndex((p) => p.has(t))` on an optional target, `-1`
when the target is missing or in no block. -/
def jsFindIndexPart (parts : List (Finset String)) : Option String → Int
  | none => -1
  | some t =>
    let i := parts.findIdx (fun p => decide (t ∈ p))
    if i = parts.length then -1 else (i : Int)

/-- The signature of a state: per alphabet symbol, the index of the block
its transition target lies in (joined with `|` in the source; list
equality coincides with joined-string equality at fixed alphabet). -/
def dfaSignature (T : List ((String × String) × String)) (A : List String)
    (parts : List (Finset String)) (s : String) : List Int :=
  A.map (fun a => jsFindIndexPart parts (jsGet T (s, a)))

/-- Add one state to the group of its signature. -/
def addToGroups (groups : List (List Int × Finset String)) (sig : List Int)
    (s : String) : List (List Int × Finset String) :=
  match jsGet groups sig with
  | some g => jsSet groups sig (insert s g)
  | none => groups ++ [(sig, {s})]

/-- Group one block's members by signature (a JS `Map` in insertion
order; the fold order over the set does not affect the produced family of
groups). -/
def groupsOf (T : List ((String × String) × String)) (A : List String)
    (parts : List (Finset String)) (part : Finset String) :
    List (List Int × Finset String) :=
  (finSortedList part).foldl
    (fun groups s => addToGroups groups (dfaSignature T A parts s) s) []

/-- One refinement pass: split every block into its signature groups. -/
def refinePass (T : List ((String × String) × String)) (A : List String)
    (parts : List (Finset String)) : List (Finset String) :=
  parts.flatMap (fun part => (groupsOf T A parts part).map (·.2))

/-- The `changed` flag of one pass: some block split into several groups. -/
def refineChanged (T : List ((String × String) × String)) (A : List String)
    (parts : List (Finset String)) : Bool :=
  parts.any (fun part => 1 < (groupsOf T A parts part).length)

/-- The `while (changed)` refinement loop: recompute the pass as long as
some block splits; the result is the last computed pass. -/
def refineLoop (T : List ((String × String) × String)) (A : List String) :
    Nat → List (Finset String) → List (Finset String)
  | 0, parts => parts
  | fuel + 1, parts =>
    if refineChanged T A parts then refineLoop T A fuel (refinePass T A parts)
    else refinePass T A parts

/-- `[...part].sort().join("_")`, the deterministic block name. -/
def joinUnd : List String → String
  | [] => ""
  | [x] => x
  | x :: rest => x ++ "_" ++ joinUnd rest

/-- `partName(part)`. -/
def partName (p : Finset String) : String := joinUnd (finSortedList p)

/-- `stateToPart.get(s)` rendered as a name; `""` stands for the JS
`undefined` of a state in no block (impossible for validated input). -/
def stateToPartName (parts : List (Finset String)) (s : String) : String :=
  match parts.find? (fun p => decide (s ∈ p)) with
  | some q => partName q
  | none => ""

/-- The final partition `minimizeDFA` refines to. -/
def minimizeParts (dfa : DFAModel) : List (Finset String) :=
  let reach := reachableStates dfa
  let acc0 := reach.filter (fun s => s ∈ dfa.acceptStates)
  let nonAcc := reach.filter (fun s => s ∉ dfa.acceptStates)
  refineLoop dfa.transitions (finSortedList dfa.alphabet) (reach.card + 1)
    ((if acc0 ≠ ∅ then [acc0] else []) ++ (if nonAcc ≠ ∅ then [nonAcc] else []))

/-- The transition map of the minimized DFA: one representative member per
block (first of the sorted member list), its targets mapped to block
names. -/
def minimizeTrans (dfa : DFAModel) (parts : List (Finset String)) :
    List ((String × String) × String) :=
  parts.foldl
    (fun trans p =>
      (finSortedList dfa.alphabet).foldl
        (fun trans a =>
          match jsGet dfa.transitions ((finSortedList p).headD "", a) with
          | some t => jsSet trans (partName p, a) (stateToPartName parts t)
          | none => trans)
        trans)
    []

/-- `minimizeDFA(dfa)`. -/
def minimizeDFA (dfa : DFAModel) : DFAModel :=
  let parts := minimizeParts dfa
  { states := (parts.map partName).toFinset
    alphabet := dfa.alphabet
    startState := stateToPartName parts dfa.startState
    acceptStates :=
      ((parts.filter (fun p => decide (∃ s ∈ p, s ∈ dfa.acceptStates))).map partName).toFinset
    transitions := minimizeTrans dfa parts }

/-- Acceptance of a word from a state in a (possibly partial) DFA
transition table: a missing transition rejects. -/
def dfaAcceptsFrom (T : List ((String × String) × String)) (acc : Finset String) :
    String → List String → Bool
  | s, [] => s ∈ acc
  | s, a :: w =>
    match jsGet T (s, a) with
    | none => false
    | some t => dfaAcceptsFrom T acc t w

/-- Running a word from a state; `none` when stuck. -/
def dfaRun (T : List ((String × String) × String)) :
    String → List String → Option String
  | s, [] => some s
  | s, a :: w =>
    match jsGet T (s, a) with
    | none => none
    | some t => dfaRun T t w

/-! Concrete sample DFA (already minimal) used by witnesses. -/

def dfaSampleMin : DFAModel :=
  { states := {"A", "B"}
    alphabet := {"x"}
    startState := "A"
    acceptStates := {"B"}
    transitions := [(("A", "x"), "B"), (("B", "x"), "B")] }

/-- Union of a list of blocks (used to state partition invariants). -/
def listUnion (l : List (Finset String)) : Finset String :=
  l.foldr (· ∪ ·) ∅

-- ===================== THEOREMS =====================

/-! ## Basic lemmas about the association-list map operations -/

theorem mem_jsSet {α β : Type} [DecidableEq α] {m : List (α × β)} {k : α} {v : β}
    {p : α × β} (hp : p ∈ jsSet m k v) : p = (k, v) ∨ p ∈ m := by
  unfold jsSet at hp
  split at hp
  · rcases List.mem_map.mp hp with ⟨q, hq, hqe⟩
    by_cases h : q.1 = k
    · simp only [h, if_pos] at hqe
      left; exact hqe.symm
    · simp only [h, if_neg, not_false_iff] at hqe
      right; exact hqe ▸ hq
  · rcases List.mem_append.mp hp with h | h
    · right; exact h
    · left; simpa using h

theorem mem_jsDelete {α β : Type} [DecidableEq α] {m : List (α × β)} {k : α}
    {p : α × β} (hp : p ∈ jsDelete m k) : p ∈ m := by
  unfold jsDelete at hp
  exact (List.mem_filter.mp hp).1

theorem jsGet_eq_some_mem {α β : Type} [DecidableEq α] {m : List (α × β)} {k : α}
    {v : β} (h : jsGet m k = some v) : (k, v) ∈ m := by
  unfold jsGet at h
  cases hf : m.find? (fun p => decide (p.1 = k)) with
  | none => simp [hf] at h
  | some p =>
    have hm := List.mem_of_find?_eq_some hf
    have hp := List.find?_some hf
    simp only [decide_eq_true_eq] at hp
    simp only [hf, Option.map_some'] at h
    obtain rfl : p = (k, v) := by
      cases p with
      | mk a b => simp_all
    exact hm

/-! ## C3 / C4 : Turing-machine `step()` on accepting and halted configurations -/

/-- C3: On a non-halted configuration whose current state is accepting,
`step()` halts with an \"accept\" status, changing only the `halted` flag and
the halt reason (state, heads, tapes, step counter and last-transition
marker are untouched), and it does so without consulting the transition
relation: the same result is produced whatever the relation is. -/
theorem tmStep_accepts_before_transitions (m : TMModel) (c : TMConfig)
    (h1 : c.halted = false) (h2 : c.currentState ∈ m.acceptStates) :
    tmStep m c =
      ({ c with halted := true, haltReason := "Aceptación." },
        ⟨"accept", "La máquina llegó a un estado de aceptación."⟩) ∧
      ∀ tr, tmStep { m with transitions := tr } c = tmStep m c := by
  constructor
  · simp [tmStep, h1, h2]
  · intro tr
    simp [tmStep, h1, h2]

theorem tmStep_accepts_before_transitions_witness :
    tmStep tmSampleModel tmSampleAcceptConfig =
      ({ tmSampleAcceptConfig with halted := true, haltReason := "Aceptación." },
        ⟨"accept", "La máquina llegó a un estado de aceptación."⟩) ∧
    ∀ tr, tmStep { tmSampleModel with transitions := tr } tmSampleAcceptConfig =
      tmStep tmSampleModel tmSampleAcceptConfig :=
  tmStep_accepts_before_transitions tmSampleModel tmSampleAcceptConfig rfl (by decide)

/-- C4: `step()` on an already-halted configuration returns the halted
status with the stored reason (or the default message when the stored
reason is empty) and changes nothing: the configuration — state, heads,
tapes, step counter, halted flag, last-transition marker — is returned
unchanged, so every subsequent call returns the very same result. -/
theorem tmStep_halted_idempotent (m : TMModel) (c : TMConfig)
    (h : c.halted = true) :
    (tmStep m c).1 = c ∧
    (tmStep m c).2 =
      ⟨"halted", if c.haltReason = "" then "La máquina ya está detenida." else c.haltReason⟩ ∧
    tmStep m (tmStep m c).1 = tmStep m c := by
  refine ⟨?_, ?_, ?_⟩ <;> simp [tmStep, h]

theorem tmStep_halted_idempotent_witness :
    (tmStep tmSampleModel tmSampleHaltedConfig).1 = tmSampleHaltedConfig ∧
    (tmStep tmSampleModel tmSampleHaltedConfig).2 =
      ⟨"halted", if tmSampleHaltedConfig.haltReason = "" then "La máquina ya está detenida."
        else tmSampleHaltedConfig.haltReason⟩ ∧
    tmStep tmSampleModel (tmStep tmSampleModel tmSampleHaltedConfig).1 =
      tmStep tmSampleModel tmSampleHaltedConfig :=
  tmStep_halted_idempotent tmSampleModel tmSampleHaltedConfig rfl

/-! ## C9 : tape sparsity invariant -/

theorem tapeSparse_jsSet {blank : String} {tape : List (Int × String)} {h : Int}
    {s : String} (hs : s ≠ blank) (ht : tapeSparse blank tape) :
    tapeSparse blank (jsSet tape h s) := by
  intro p hp
  rcases mem_jsSet hp with rfl | hm
  · exact hs
  · exact ht p hm

theorem tapeSparse_tmWriteTape {blank : String} {tape : List (Int × String)}
    {h : Int} {s : String} (ht : tapeSparse blank tape) :
    tapeSparse blank (tmWriteTape blank tape h s) := by
  unfold tmWriteTape
  split
  · intro p hp; exact ht p (mem_jsDelete hp)
  · exact tapeSparse_jsSet (by assumption) ht

theorem tapeSparse_tmBuildTape (blank : String) (symbols : List String) :
    tapeSparse blank (tmBuildTape blank symbols) := by
  unfold tmBuildTape
  generalize symbols.enum = l
  have H : ∀ (l : List (Nat × String)) (tape : List (Int × String)),
      tapeSparse blank tape →
      tapeSparse blank (l.foldl
        (fun tape pv => if pv.2 = blank then tape else jsSet tape (Int.ofNat pv.1) pv.2) tape) := by
    intro l
    induction l with
    | nil => intro tape ht; exact ht
    | cons pv rest ih =>
      intro tape ht
      simp only [List.foldl_cons]
      apply ih
      split
      · exact ht
      · exact tapeSparse_jsSet (by assumption) ht
  exact H l [] (by intro p hp; simp at hp)

theorem tapeSparse_getD {blank : String} {tapes : List (List (Int × String))}
    (h : ∀ t ∈ tapes, tapeSparse blank t) (i : Nat) :
    tapeSparse blank (tapes.getD i []) := by
  cases hx : tapes.get? i with
  | none =>
    have hd : tapes.getD i [] = [] := by
      simp [List.getD, ← List.get?_eq_getElem?, hx]
    rw [hd]; intro p hp; simp at hp
  | some t =>
    have hd : tapes.getD i [] = t := by
      simp [List.getD, ← List.get?_eq_getElem?, hx]
    rw [hd]
    exact h t (List.get?_mem hx)

theorem tapesSparse_tmApplyActions {blank : String} {actions : List TMAction}
    {heads : List Int} {tapes : List (List (Int × String))}
    (h : ∀ t ∈ tapes, tapeSparse blank t) :
    ∀ t ∈ (tmApplyActions blank actions heads tapes).2, tapeSparse blank t := by
  unfold tmApplyActions
  generalize actions.enum = l
  have H : ∀ (l : List (Nat × TMAction)) (acc : List Int × List (List (Int × String))),
      (∀ t ∈ acc.2, tapeSparse blank t) →
      ∀ t ∈ (l.foldl
        (fun acc ia =>
          let i := ia.1
          let a := ia.2
          let h := acc.1.getD i 0
          let tapes1 :=
            match a.writeSymbol with
            | some s => if s = "" then acc.2 else acc.2.set i (tmWriteTape blank (acc.2.getD i []) h s)
            | none => acc.2
          let heads1 :=
            if a.move = "R" then acc.1.set i (h + 1)
            else if a.move = "L" then acc.1.set i (h - 1)
            else acc.1
          (heads1, tapes1)) acc).2, tapeSparse blank t := by
    intro l
    induction l with
    | nil => intro acc hacc; exact hacc
    | cons ia rest ih =>
      intro acc hacc
      simp only [List.foldl_cons]
      apply ih
      intro t ht
      simp only at ht
      rcases hw : ia.2.writeSymbol with _ | s
      · simp only [hw] at ht
        exact hacc t ht
      · simp only [hw] at ht
        by_cases hse : s = ""
        · simp only [hse, if_pos] at ht
          exact hacc t ht
        · simp only [hse, if_neg, not_false_iff] at ht
          rcases List.mem_or_eq_of_mem_set ht with hm | rfl
          · exact hacc t hm
          · exact tapeSparse_tmWriteTape (tapeSparse_getD hacc ia.1)
  exact H l (heads, tapes) h

/-- C9: sparsity is an invariant of the tape store. `reset` stores only
non-blank initial symbols; `write` of the blank removes the entry and any
other write stores a non-blank symbol; `step()` preserves sparsity of every
tape; and under sparsity, `read` returns the blank exactly when no entry is
present at the head position. -/
theorem tape_sparsity_invariant :
    (∀ (m : TMModel) (inputTapes : List (List String)),
        tmConfigSparse m.blankSymbol (tmReset m inputTapes)) ∧
    (∀ (blank : String) (tape : List (Int × String)) (h : Int) (s : String),
        tapeSparse blank tape → tapeSparse blank (tmWriteTape blank tape h s)) ∧
    (∀ (m : TMModel) (c : TMConfig),
        tmConfigSparse m.blankSymbol c → tmConfigSparse m.blankSymbol (tmStep m c).1) ∧
    (∀ (m : TMModel) (c : TMConfig) (i : Nat),
        tapeSparse m.blankSymbol (c.tapes.getD i []) →
        (tmRead m c i = m.blankSymbol ↔ jsGet (c.tapes.getD i []) (c.heads.getD i 0) = none)) := by
  refine ⟨?_, ?_, ?_, ?_⟩
  · intro m inputTapes t ht
    simp only [tmReset] at ht
    rcases List.mem_map.mp ht with ⟨i, _, rfl⟩
    exact tapeSparse_tmBuildTape _ _
  · intro blank tape h s ht
    exact tapeSparse_tmWriteTape ht
  · intro m c hc
    intro t ht
    simp only [tmStep] at ht
    split at ht
    · exact hc t ht
    split at ht
    · exact hc t ht
    split at ht
    · exact hc t ht
    split at ht
    · exact tapesSparse_tmApplyActions hc t ht
    · exact tapesSparse_tmApplyActions hc t ht
  · intro m c i hs
    unfold tmRead
    cases hg : jsGet (c.tapes.getD i []) (c.heads.getD i 0) with
    | none => simp
    | some v =>
      have hv : v ≠ m.blankSymbol := hs _ (jsGet_eq_some_mem hg)
      simp [hv]

theorem tape_sparsity_invariant_witness :
    tmConfigSparse "#" (tmReset tmSampleModel [["1", "#", "1"], []]) ∧
    tapeSparse "#" (tmWriteTape "#" [((0 : Int), "1")] 0 "#") ∧
    tmConfigSparse "#" (tmStep tmSampleModel tmSampleAcceptConfig).1 ∧
    (tmRead tmSampleModel tmSampleAcceptConfig 0 = "#" ↔
      jsGet (tmSampleAcceptConfig.tapes.getD 0 []) (tmSampleAcceptConfig.heads.getD 0 0) = none) :=
  ⟨tape_sparsity_invariant.1 tmSampleModel [["1", "#", "1"], []],
   tape_sparsity_invariant.2.1 "#" [((0 : Int), "1")] 0 "#"
     (by unfold tapeSparse; decide),
   tape_sparsity_invariant.2.2.1 tmSampleModel tmSampleAcceptConfig
     (by unfold tmConfigSparse tapeSparse; decide),
   tape_sparsity_invariant.2.2.2 tmSampleModel tmSampleAcceptConfig 0
     (by unfold tapeSparse; decide)⟩

/-! ## C1 : PDA step-bound exhaustion vs. queue exhaustion -/

theorem evalPdaLoop_reject_constant (m : PDAModel) (input : List Char) :
    ∀ (fuel : Nat) (queue : List PDAConfig) (seen : Finset (String × Nat × String)),
      (evalPdaLoop m input fuel queue seen).accepted = false →
      evalPdaLoop m input fuel queue seen =
        ⟨false, "No se encontró configuración de aceptación."⟩ := by
  intro fuel
  induction fuel with
  | zero => intro queue seen _; rfl
  | succ f ih =>
    intro queue seen hacc
    cases queue with
    | nil => rfl
    | cons cfg rest =>
      rw [evalPdaLoop] at hacc ⊢
      by_cases h1 : pdaSeenKey cfg ∈ seen
      · rw [if_pos h1] at hacc ⊢
        exact ih _ _ hacc
      · rw [if_neg h1] at hacc ⊢
        by_cases h2 : cfg.pos = input.length ∧ cfg.state ∈ m.acceptStates
        · rw [if_pos h2] at hacc
          simp at hacc
        · rw [if_neg h2] at hacc ⊢
          exact ih _ _ hacc

/-- C1: the claim fails on the code. Whenever `evaluatePDA` does not accept
— whether the loop stopped because the fixed `maxSteps = 20000` bound was
reached or because the search queue was exhausted after exploring every
reachable configuration — it returns the one and the same result record
`{accepted: false, detail: "No se encontró configuración de aceptación."}`:
the two outcomes are not distinguishable by status or diagnostic. -/
theorem evaluatePDA_rejections_indistinguishable (m : PDAModel) (input : List Char)
    (h : (evaluatePDA m input).accepted = false) :
    evaluatePDA m input = ⟨false, "No se encontró configuración de aceptación."⟩ :=
  evalPdaLoop_reject_constant m input 20000 _ _ h

theorem evaluatePDA_rejections_indistinguishable_witness :
    (evaluatePDA pdaSampleModel []).accepted = false ∧
    evaluatePDA pdaSampleModel [] =
      ⟨false, "No se encontró configuración de aceptación."⟩ :=
  ⟨by decide, evaluatePDA_rejections_indistinguishable pdaSampleModel [] (by decide)⟩

/-! ## C5 : effect of an applicable PDA transition -/

/-- C5: an applicable transition `(s, a, x) → (s2, p)` — the state matches,
`a` is epsilon or equals the word's symbol at position `i` (so a non-epsilon
`a` cannot apply past the end of the word), and `x` is epsilon or equals the
current stack top — produces exactly the successor with state `s2`, input
position `i + 1` precisely when `a` is non-epsilon and `i` otherwise, and a
stack obtained by popping exactly one symbol exactly when `x` is non-epsilon
and then pushing `p` last-character-first; when `p` is a non-epsilon,
non-empty string the first character of `p` ends up on top of the stack. -/
theorem pda_transition_effect (m : PDAModel) (input : List Char) (cfg : PDAConfig)
    (t : PDATrans) (ht : t ∈ m.transitions) (hs : t.state = cfg.state)
    (ha : t.inputSym = "eps" ∨ (input.get? cfg.pos).map charStr = some t.inputSym)
    (hx : t.stackTop = "eps" ∨ pdaTop cfg.stack = t.stackTop) :
    ({ state := t.nextState
       pos := if t.inputSym = "eps" then cfg.pos else cfg.pos + 1
       stack :=
         (if t.stackTop = "eps" then cfg.stack else cfg.stack.dropLast) ++
           (if t.push = "eps" ∨ t.push = "" then []
            else (t.push.data.map charStr).reverse) } : PDAConfig) ∈
      pdaSuccessors m input cfg ∧
    (∀ c0 crest, t.push.data = c0 :: crest → t.push ≠ "eps" →
      pdaTop ((if t.stackTop = "eps" then cfg.stack else cfg.stack.dropLast) ++
          (if t.push = "eps" ∨ t.push = "" then []
           else (t.push.data.map charStr).reverse)) = charStr c0) := by
  constructor
  · apply List.mem_filterMap.mpr
    refine ⟨t, ht, ?_⟩
    rw [pdaStepConfig, if_pos ⟨hs, ha, hx⟩]
  · intro c0 crest hdata hne
    have hne2 : t.push ≠ "" := by
      intro hcon
      rw [hcon] at hdata
      simp [String.data] at hdata
    have hif : (if t.push = "eps" ∨ t.push = "" then []
        else (t.push.data.map charStr).reverse) = (t.push.data.map charStr).reverse :=
      if_neg (by simp [hne, hne2])
    rw [hif, hdata]
    unfold pdaTop
    rw [List.map_cons, List.reverse_cons, ← List.append_assoc, List.getLast?_concat]

theorem pda_transition_effect_witness :
    ({ state := pdaSampleTrans.nextState
       pos := if pdaSampleTrans.inputSym = "eps" then pdaSampleConfig.pos
         else pdaSampleConfig.pos + 1
       stack :=
         (if pdaSampleTrans.stackTop = "eps" then pdaSampleConfig.stack
          else pdaSampleConfig.stack.dropLast) ++
           (if pdaSampleTrans.push = "eps" ∨ pdaSampleTrans.push = "" then []
            else (pdaSampleTrans.push.data.map charStr).reverse) } : PDAConfig) ∈
      pdaSuccessors pdaSampleModel2 ['a', 'b'] pdaSampleConfig ∧
    (∀ c0 crest, pdaSampleTrans.push.data = c0 :: crest → pdaSampleTrans.push ≠ "eps" →
      pdaTop ((if pdaSampleTrans.stackTop = "eps" then pdaSampleConfig.stack
          else pdaSampleConfig.stack.dropLast) ++
          (if pdaSampleTrans.push = "eps" ∨ pdaSampleTrans.push = "" then []
           else (pdaSampleTrans.push.data.map charStr).reverse)) = charStr c0) :=
  pda_transition_effect pdaSampleModel2 ['a', 'b'] pdaSampleConfig pdaSampleTrans
    (by decide) (by decide) (Or.inr (by decide)) (Or.inr (by decide))

/-! ## C2 : FA acceptance iff an explored end-of-word accepting configuration -/

theorem evalFaLoop_accept_iff (ts : List FATrans) (accept : Finset String)
    (word : List Char) :
    ∀ (fuel : Nat) (queue : List (String × Nat)) (seen : Finset (String × Nat)),
      (∀ c ∈ seen, ¬(c.2 = word.length ∧ c.1 ∈ accept)) →
      ((evalFaLoop ts accept word fuel queue seen).1 = true ↔
        ∃ c ∈ (evalFaLoop ts accept word fuel queue seen).2,
          c.2 = word.length ∧ c.1 ∈ accept) := by
  intro fuel
  induction fuel with
  | zero =>
    intro queue seen hseen
    simp only [evalFaLoop]
    constructor
    · intro h; simp at h
    · rintro ⟨c, hc, hacc⟩
      exact absurd hacc (hseen c hc)
  | succ f ih =>
    intro queue seen hseen
    cases queue with
    | nil =>
      simp only [evalFaLoop]
      constructor
      · intro h; simp at h
      · rintro ⟨c, hc, hacc⟩
        exact absurd hacc (hseen c hc)
    | cons cfg rest =>
      rw [evalFaLoop]
      by_cases h1 : cfg ∈ seen
      · rw [if_pos h1]
        exact ih rest seen hseen
      · rw [if_neg h1]
        simp only
        by_cases h2 : cfg.2 = word.length ∧ cfg.1 ∈ accept
        · rw [if_pos h2]
          simp only [true_iff]
          exact ⟨cfg, Finset.mem_insert_self cfg seen, h2⟩
        · rw [if_neg h2]
          apply ih
          intro c hc
          rcases Finset.mem_insert.mp hc with rfl | hc2
          · exact h2
          · exact hseen c hc2

/-- C2: `evaluateFA` accepts a word exactly when some configuration
`(state, position)` explored by its breadth-first search — which starts at
`(startState, 0)`, follows epsilon transitions without moving the position
and follows each symbol-labeled transition whose label occurs as a
contiguous substring of the word at the current position by advancing the
position by the label's length — has position equal to the word's length
and a state in the accept set. -/
theorem evaluateFA_accepted_iff_explored (m : FAModel) (word : List Char) :
    (evaluateFA m word).1 = true ↔
      ∃ c ∈ (evaluateFA m word).2, c.2 = word.length ∧ c.1 ∈ m.acceptStates :=
  evalFaLoop_accept_iff (faTransitionsList m) m.acceptStates word _ _ _
    (by intro c hc; simp at hc)

/-! ## Lookup/update lemmas for the association-list maps -/

theorem find?_map_if_self {α β : Type} [DecidableEq α] (k : α) (v : β) :
    ∀ (m : List (α × β)), m.any (fun p => decide (p.1 = k)) = true →
      (m.map (fun p => if p.1 = k then (k, v) else p)).find?
        (fun p => decide (p.1 = k)) = some (k, v) := by
  intro m
  induction m with
  | nil => intro h; simp at h
  | cons p rest ih =>
    intro h
    by_cases hp : p.1 = k
    · simp [List.find?_cons, hp]
    · rw [List.map_cons, List.find?_cons]
      have hd : (if p.1 = k then (k, v) else p) = p := if_neg hp
      rw [hd]
      have hpf : (decide (p.1 = k) : Bool) = false := by simp [hp]
      rw [hpf]
      apply ih
      simpa [hp] using h

theorem find?_map_if_ne {α β : Type} [DecidableEq α] (k : α) (v : β) (q : α)
    (h : q ≠ k) :
    ∀ (m : List (α × β)),
      (m.map (fun p => if p.1 = k then (k, v) else p)).find?
        (fun p => decide (p.1 = q)) = m.find? (fun p => decide (p.1 = q)) := by
  intro m
  induction m with
  | nil => simp
  | cons p rest ih =>
    rw [List.map_cons, List.find?_cons]
    by_cases hp : p.1 = k
    · have hd : (if p.1 = k then (k, v) else p) = (k, v) := if_pos hp
      rw [hd]
      have h1 : (decide ((k, v).1 = q)) = false := by simp [Ne.symm h]
      have h2 : (decide (p.1 = q)) = false := by simp [hp, Ne.symm h]
      rw [List.find?_cons, h2]
      simp only [h1]
      exact ih
    · have hd : (if p.1 = k then (k, v) else p) = p := if_neg hp
      rw [hd, List.find?_cons]
      cases hq : (decide (p.1 = q) : Bool)
      · exact ih
      · rfl

theorem jsGet_jsSet_self {α β : Type} [DecidableEq α] (m : List (α × β)) (k : α) (v : β) :
    jsGet (jsSet m k v) k = some v := by
  unfold jsGet jsSet
  split
  · rw [find?_map_if_self k v m (by assumption)]
    rfl
  · rw [List.find?_append]
    have hnone : m.find? (fun p => decide (p.1 = k)) = none := by
      rw [List.find?_eq_none]
      intro x hx
      simp only [decide_eq_true_eq]
      have hany : m.any (fun p => decide (p.1 = k)) = false := by
        rename_i hcon
        exact Bool.not_eq_true _ ▸ (by simpa using hcon)
      have := List.any_eq_false.mp hany x hx
      simpa using this
    rw [hnone]
    simp

theorem jsGet_jsSet_ne {α β : Type} [DecidableEq α] (m : List (α × β)) (k : α) (v : β)
    (q : α) (h : q ≠ k) : jsGet (jsSet m k v) q = jsGet m q := by
  unfold jsGet jsSet
  split
  · rw [find?_map_if_ne k v q h m]
  · rw [List.find?_append]
    have hlast : List.find? (fun p => decide (p.1 = q)) [(k, v)] = none := by
      simp [Ne.symm h]
    rw [hlast]
    simp

/-! ## C6 : unit-label expansion -/

theorem jsGet_append_left {α β : Type} [DecidableEq α] {m : List (α × β)}
    {q : α} {w : β} (l2 : List (α × β)) (h : jsGet m q = some w) :
    jsGet (m ++ l2) q = some w := by
  unfold jsGet at h ⊢
  rw [List.find?_append]
  cases hf : m.find? (fun p => decide (p.1 = q)) with
  | none => rw [hf] at h; simp at h
  | some p =>
    rw [hf] at h
    simpa using h

theorem jsGet_eq_none_of_find?_none {α β : Type} [DecidableEq α] {m : List (α × β)}
    {q : α} (h : jsGet m q = none) : m.find? (fun p => decide (p.1 = q)) = none := by
  unfold jsGet at h
  exact Option.map_eq_none'.mp h

theorem memTransB_add_self (st : ExpandState) (f sym d : String) :
    memTransB (addTransitionNFA st f sym d).transitions f sym d = true := by
  unfold memTransB addTransitionNFA
  cases hg : jsGet st.transitions (f, sym) with
  | some dset =>
    simp only [hg, jsGet_jsSet_self]
    simp
  | none =>
    simp only [hg]
    have : jsGet (st.transitions ++ [((f, sym), ({d} : Finset String))]) (f, sym) =
        some {d} := by
      unfold jsGet
      rw [List.find?_append, jsGet_eq_none_of_find?_none hg]
      simp
    rw [this]
    simp

theorem memTransB_add_mono {st : ExpandState} {f sym d : String}
    (f2 sym2 d2 : String) (h : memTransB st.transitions f sym d = true) :
    memTransB (addTransitionNFA st f2 sym2 d2).transitions f sym d = true := by
  unfold memTransB at h ⊢
  unfold addTransitionNFA
  cases hg0 : jsGet st.transitions (f, sym) with
  | none => rw [hg0] at h; simp at h
  | some dset =>
    rw [hg0] at h
    cases hg2 : jsGet st.transitions (f2, sym2) with
    | some dset2 =>
      simp only [hg2]
      by_cases hk : (f, sym) = (f2, sym2)
      · rw [hk] at hg0
        rw [hk, jsGet_jsSet_self]
        rw [hg0] at hg2
        cases hg2
        simp only [Finset.mem_insert]
        simp only [decide_eq_true_eq] at h ⊢
        right; exact h
      · rw [jsGet_jsSet_ne _ _ _ _ hk, hg0]
        exact h
    | none =>
      simp only [hg2]
      have hk : (f, sym) ≠ (f2, sym2) := by
        intro hcon; rw [hcon] at hg0; rw [hg0] at hg2; cases hg2
      rw [jsGet_append_left _ hg0]
      exact h

theorem memTransB_expandChain_mono {f sym d : String} :
    ∀ (chars : List Char) (st : ExpandState) (prev dd : String),
      memTransB st.transitions f sym d = true →
      memTransB (expandChain st prev chars dd).transitions f sym d = true := by
  intro chars
  induction chars with
  | nil => intro st prev dd h; exact h
  | cons c rest ih =>
    intro st prev dd h
    cases rest with
    | nil =>
      show memTransB (addTransitionNFA _ prev (charStr c) dd).transitions f sym d = true
      exact memTransB_add_mono _ _ _ h
    | cons c2 r2 =>
      show memTransB (expandChain (addTransitionNFA _ prev (charStr c) (auxName st.aux))
        (auxName st.aux) (c2 :: r2) dd).transitions f sym d = true
      exact ih _ _ _ (memTransB_add_mono _ _ _ h)

theorem memTransB_expandDest_mono {f sym d : String} (st : ExpandState)
    (f2 lab d2 : String) (h : memTransB st.transitions f sym d = true) :
    memTransB (expandDest st f2 lab d2).transitions f sym d = true := by
  unfold expandDest
  split
  · exact memTransB_add_mono _ _ _ h
  split
  · exact memTransB_add_mono _ _ _ h
  · exact memTransB_expandChain_mono _ _ _ _ h

theorem memTransB_expandEntry_mono {f sym d : String} :
    ∀ (dests : List String) (st : ExpandState) (f2 labRaw : String),
      memTransB st.transitions f sym d = true →
      memTransB (expandEntry st f2 labRaw dests).transitions f sym d = true := by
  intro dests
  induction dests with
  | nil => intro st f2 labRaw h; exact h
  | cons d0 rest ih =>
    intro st f2 labRaw h
    unfold expandEntry at ih ⊢
    rw [List.foldl_cons]
    exact ih _ _ _ (memTransB_expandDest_mono _ _ _ _ h)

theorem memTransB_entriesFold_mono {f sym d : String} :
    ∀ (entries : List ((String × String) × List String)) (st : ExpandState),
      memTransB st.transitions f sym d = true →
      memTransB (entries.foldl (fun st e => expandEntry st e.1.1 e.1.2 e.2) st).transitions
        f sym d = true := by
  intro entries
  induction entries with
  | nil => intro st h; exact h
  | cons e rest ih =>
    intro st h
    rw [List.foldl_cons]
    exact ih _ (memTransB_expandEntry_mono _ _ _ _ h)

theorem IsChainVia_mono {ts1 ts2 : List ((String × String) × Finset String)}
    (H : ∀ f sym d, memTransB ts1 f sym d = true → memTransB ts2 f sym d = true) :
    ∀ (chars : List Char) (f d : String),
      IsChainVia ts1 f chars d → IsChainVia ts2 f chars d := by
  intro chars
  induction chars with
  | nil => intro f d h; exact h
  | cons c rest ih =>
    intro f d h
    rcases h with ⟨mid, hmem, hlast, haux, hrest⟩
    exact ⟨mid, H _ _ _ hmem, hlast, haux, ih _ _ hrest⟩

theorem expandChain_establishes :
    ∀ (chars : List Char) (st : ExpandState) (prev d : String), chars ≠ [] →
      IsChainVia (expandChain st prev chars d).transitions prev chars d := by
  intro chars
  induction chars with
  | nil => intro st prev d h; exact absurd rfl h
  | cons c rest ih =>
    intro st prev d _
    cases rest with
    | nil =>
      show ∃ mid, memTransB (expandChain st prev [c] d).transitions prev (charStr c) mid = true ∧
        (([] : List Char) = [] → mid = d) ∧ (([] : List Char) ≠ [] → ∃ k, mid = auxName k) ∧
        IsChainVia (expandChain st prev [c] d).transitions mid [] d
      refine ⟨d, ?_, fun _ => rfl, fun h => absurd rfl h, rfl⟩
      show memTransB (addTransitionNFA { st with states := insert d st.states }
        prev (charStr c) d).transitions prev (charStr c) d = true
      exact memTransB_add_self _ _ _ _
    | cons c2 r2 =>
      show ∃ mid,
        memTransB (expandChain st prev (c :: c2 :: r2) d).transitions prev (charStr c) mid = true ∧
        (c2 :: r2 = [] → mid = d) ∧ (c2 :: r2 ≠ [] → ∃ k, mid = auxName k) ∧
        IsChainVia (expandChain st prev (c :: c2 :: r2) d).transitions mid (c2 :: r2) d
      refine ⟨auxName st.aux, ?_, fun h => absurd h (List.cons_ne_nil _ _),
        fun _ => ⟨st.aux, rfl⟩, ?_⟩
      · show memTransB (expandChain
          (addTransitionNFA { st with states := insert (auxName st.aux) st.states, aux := st.aux + 1 }
            prev (charStr c) (auxName st.aux))
          (auxName st.aux) (c2 :: r2) d).transitions prev (charStr c) (auxName st.aux) = true
        exact memTransB_expandChain_mono _ _ _ _ (memTransB_add_self _ _ _ _)
      · show IsChainVia (expandChain
          (addTransitionNFA { st with states := insert (auxName st.aux) st.states, aux := st.aux + 1 }
            prev (charStr c) (auxName st.aux))
          (auxName st.aux) (c2 :: r2) d).transitions (auxName st.aux) (c2 :: r2) d
        exact ih _ _ _ (by simp)

theorem normalize_ne_eps {r : String} (h : normalizeEpsilonLabel r ≠ "eps") :
    normalizeEpsilonLabel r = r.trim ∧ r.trim ≠ "" := by
  unfold normalizeEpsilonLabel at h ⊢
  by_cases hc : r.trim = "" ∨ r.trim.toLower = "eps" ∨ r.trim.toLower = "epsilon" ∨ r.trim = "ε"
  · exact absurd (if_pos hc) h
  · exact ⟨if_neg hc, fun hcon => hc (Or.inl hcon)⟩

theorem strLength_pos {s : String} (h : s ≠ "") : 0 < s.length := by
  rcases Nat.eq_zero_or_pos s.length with h0 | hp
  · exact absurd (String.ext (List.length_eq_zero.mp h0)) h
  · exact hp

theorem charStr_length (c : Char) : (charStr c).length = 1 := rfl

theorem labelsUnit_add {st : ExpandState} (f sym d : String)
    (hst : ∀ e ∈ st.transitions, e.1.2 = "eps" ∨ e.1.2.length = 1)
    (hsym : sym = "eps" ∨ sym.length = 1) :
    ∀ e ∈ (addTransitionNFA st f sym d).transitions,
      e.1.2 = "eps" ∨ e.1.2.length = 1 := by
  intro e he
  unfold addTransitionNFA at he
  cases hg : jsGet st.transitions (f, sym) with
  | some dset =>
    rw [hg] at he
    simp only at he
    rcases mem_jsSet he with rfl | hm
    · exact hsym
    · exact hst e hm
  | none =>
    rw [hg] at he
    simp only at he
    rcases List.mem_append.mp he with hm | hm
    · exact hst e hm
    · simp only [List.mem_singleton] at hm
      subst hm
      exact hsym

theorem labelsUnit_expandChain :
    ∀ (chars : List Char) (st : ExpandState) (prev d : String),
      (∀ e ∈ st.transitions, e.1.2 = "eps" ∨ e.1.2.length = 1) →
      ∀ e ∈ (expandChain st prev chars d).transitions,
        e.1.2 = "eps" ∨ e.1.2.length = 1 := by
  intro chars
  induction chars with
  | nil => intro st prev d hst; exact hst
  | cons c rest ih =>
    intro st prev d hst
    cases rest with
    | nil =>
      show ∀ e ∈ (addTransitionNFA { st with states := insert d st.states }
        prev (charStr c) d).transitions, _
      exact labelsUnit_add _ _ _ hst (Or.inr (charStr_length c))
    | cons c2 r2 =>
      show ∀ e ∈ (expandChain
        (addTransitionNFA { st with states := insert (auxName st.aux) st.states, aux := st.aux + 1 }
          prev (charStr c) (auxName st.aux))
        (auxName st.aux) (c2 :: r2) d).transitions, _
      exact ih _ _ _ (labelsUnit_add _ _ _ hst (Or.inr (charStr_length c)))

theorem labelsUnit_expandDest {st : ExpandState} (f lab d : String)
    (hne : lab ≠ "eps" → lab ≠ "")
    (hst : ∀ e ∈ st.transitions, e.1.2 = "eps" ∨ e.1.2.length = 1) :
    ∀ e ∈ (expandDest st f lab d).transitions,
      e.1.2 = "eps" ∨ e.1.2.length = 1 := by
  unfold expandDest
  split
  · exact labelsUnit_add _ _ _ hst (Or.inl rfl)
  split
  · rename_i hlne hlen
    have h1 : 0 < lab.length := strLength_pos (hne hlne)
    exact labelsUnit_add _ _ _ hst (Or.inr (by omega))
  · rename_i hlne hlen
    exact labelsUnit_expandChain _ _ _ _ hst

theorem labelsUnit_expandEntry :
    ∀ (dests : List String) (st : ExpandState) (f labelRaw : String),
      (∀ e ∈ st.transitions, e.1.2 = "eps" ∨ e.1.2.length = 1) →
      ∀ e ∈ (expandEntry st f labelRaw dests).transitions,
        e.1.2 = "eps" ∨ e.1.2.length = 1 := by
  intro dests
  induction dests with
  | nil => intro st f labelRaw hst; exact hst
  | cons d0 rest ih =>
    intro st f labelRaw hst
    unfold expandEntry at ih ⊢
    rw [List.foldl_cons]
    apply ih
    apply labelsUnit_expandDest _ _ _ _ hst
    intro hlne
    exact (normalize_ne_eps hlne).1 ▸ (normalize_ne_eps hlne).2

theorem labelsUnit_entriesFold :
    ∀ (entries : List ((String × String) × List String)) (st : ExpandState),
      (∀ e ∈ st.transitions, e.1.2 = "eps" ∨ e.1.2.length = 1) →
      ∀ e ∈ (entries.foldl (fun st e => expandEntry st e.1.1 e.1.2 e.2) st).transitions,
        e.1.2 = "eps" ∨ e.1.2.length = 1 := by
  intro entries
  induction entries with
  | nil => intro st hst; exact hst
  | cons e0 rest ih =>
    intro st hst
    rw [List.foldl_cons]
    exact ih _ (labelsUnit_expandEntry _ _ _ _ hst)

theorem expandDest_establishes (st : ExpandState) (f lab d : String) :
    (lab = "eps" → memTransB (expandDest st f lab d).transitions f "eps" d = true) ∧
    (lab ≠ "eps" → lab.length ≤ 1 →
      memTransB (expandDest st f lab d).transitions f lab d = true) ∧
    (lab ≠ "eps" → 1 < lab.length →
      IsChainVia (expandDest st f lab d).transitions f lab.data d) := by
  unfold expandDest
  by_cases h1 : lab = "eps"
  · rw [if_pos h1]
    refine ⟨fun _ => memTransB_add_self _ _ _ _, fun hc => absurd h1 hc, fun hc => absurd h1 hc⟩
  · rw [if_neg h1]
    by_cases h2 : lab.length ≤ 1
    · rw [if_pos h2]
      exact ⟨fun hc => absurd hc h1, fun _ _ => memTransB_add_self _ _ _ _,
        fun _ hlen => absurd h2 (by omega)⟩
    · rw [if_neg h2]
      refine ⟨fun hc => absurd hc h1, fun _ hlen => absurd hlen h2, fun _ _ => ?_⟩
      apply expandChain_establishes
      intro hcon
      have : lab.length = 0 := by
        show lab.data.length = 0
        rw [hcon]
        rfl
      omega

theorem expandEntry_establishes :
    ∀ (dests : List String) (st : ExpandState) (f labelRaw d : String), d ∈ dests →
      (normalizeEpsilonLabel labelRaw = "eps" →
        memTransB (expandEntry st f labelRaw dests).transitions f "eps" d = true) ∧
      (normalizeEpsilonLabel labelRaw ≠ "eps" → (normalizeEpsilonLabel labelRaw).length ≤ 1 →
        memTransB (expandEntry st f labelRaw dests).transitions f
          (normalizeEpsilonLabel labelRaw) d = true) ∧
      (normalizeEpsilonLabel labelRaw ≠ "eps" → 1 < (normalizeEpsilonLabel labelRaw).length →
        IsChainVia (expandEntry st f labelRaw dests).transitions f
          (normalizeEpsilonLabel labelRaw).data d) := by
  intro dests
  induction dests with
  | nil => intro st f labelRaw d hd; simp at hd
  | cons d0 rest ih =>
    intro st f labelRaw d hd
    unfold expandEntry at ih ⊢
    rw [List.foldl_cons]
    rcases List.mem_cons.mp hd with rfl | hmem
    · have hest := expandDest_establishes st f (normalizeEpsilonLabel labelRaw) d
      refine ⟨fun h1 => ?_, fun h1 h2 => ?_, fun h1 h2 => ?_⟩
      · exact memTransB_expandEntry_mono _ _ _ _ (hest.1 h1)
      · exact memTransB_expandEntry_mono _ _ _ _ (hest.2.1 h1 h2)
      · exact IsChainVia_mono (fun f' sym' d' h => memTransB_expandEntry_mono _ _ _ _ h) _ _ _
          (hest.2.2 h1 h2)
    · exact ih _ _ _ _ hmem

theorem expand_entriesFold_establishes :
    ∀ (entries : List ((String × String) × List String)) (st : ExpandState)
      (f labelRaw : String) (dests : List String) (d : String),
      ((f, labelRaw), dests) ∈ entries → d ∈ dests →
      (normalizeEpsilonLabel labelRaw = "eps" →
        memTransB (entries.foldl (fun st e => expandEntry st e.1.1 e.1.2 e.2) st).transitions
          f "eps" d = true) ∧
      (normalizeEpsilonLabel labelRaw ≠ "eps" → (normalizeEpsilonLabel labelRaw).length ≤ 1 →
        memTransB (entries.foldl (fun st e => expandEntry st e.1.1 e.1.2 e.2) st).transitions
          f (normalizeEpsilonLabel labelRaw) d = true) ∧
      (normalizeEpsilonLabel labelRaw ≠ "eps" → 1 < (normalizeEpsilonLabel labelRaw).length →
        IsChainVia (entries.foldl (fun st e => expandEntry st e.1.1 e.1.2 e.2) st).transitions
          f (normalizeEpsilonLabel labelRaw).data d) := by
  intro entries
  induction entries with
  | nil => intro st f labelRaw dests d he hd; simp at he
  | cons e0 rest ih =>
    intro st f labelRaw dests d he hd
    rw [List.foldl_cons]
    rcases List.mem_cons.mp he with rfl | hmem
    · have hest := expandEntry_establishes dests st f labelRaw d hd
      refine ⟨fun h1 => ?_, fun h1 h2 => ?_, fun h1 h2 => ?_⟩
      · exact memTransB_entriesFold_mono _ _ (hest.1 h1)
      · exact memTransB_entriesFold_mono _ _ (hest.2.1 h1 h2)
      · exact IsChainVia_mono (fun f' sym' d' h => memTransB_entriesFold_mono _ _ h) _ _ _
          (hest.2.2 h1 h2)
    · exact ih _ _ _ _ _ hmem hd

/-- C6: in the unit-label expansion's output every transition's label is
either epsilon or exactly one character long; an epsilon-normalized label
of an input transition passes through as an epsilon transition with the
same source and destination; a single-character label passes through
unchanged; and a multi-character label is replaced by a chain of
single-character transitions spelling the label whose first state is the
original source, whose last state is the original destination, and whose
intermediate states are freshly named `__auxN` states. -/
theorem expandLabels_unit_and_chains (m : FAModel) (f labelRaw : String)
    (dests : List String) (d : String)
    (he : ((f, labelRaw), dests) ∈ m.transitions) (hd : d ∈ dests) :
    (∀ e ∈ (expandLabelsToUnitNFA m).transitions, e.1.2 = "eps" ∨ e.1.2.length = 1) ∧
    (normalizeEpsilonLabel labelRaw = "eps" →
      memTransB (expandLabelsToUnitNFA m).transitions f "eps" d = true) ∧
    (normalizeEpsilonLabel labelRaw ≠ "eps" → (normalizeEpsilonLabel labelRaw).length ≤ 1 →
      memTransB (expandLabelsToUnitNFA m).transitions f (normalizeEpsilonLabel labelRaw) d = true) ∧
    (normalizeEpsilonLabel labelRaw ≠ "eps" → 1 < (normalizeEpsilonLabel labelRaw).length →
      IsChainVia (expandLabelsToUnitNFA m).transitions f (normalizeEpsilonLabel labelRaw).data d) := by
  have hfold := expand_entriesFold_establishes m.transitions
    { states := m.states, alphabet := ∅, transitions := [], aux := 0 } f labelRaw dests d he hd
  have hunit := labelsUnit_entriesFold m.transitions
    { states := m.states, alphabet := ∅, transitions := [], aux := 0 }
    (by intro e hx; simp at hx)
  exact ⟨hunit, hfold.1, hfold.2.1, hfold.2.2⟩

theorem expandLabels_unit_and_chains_witness :
    (∀ e ∈ (expandLabelsToUnitNFA faSampleModel).transitions,
      e.1.2 = "eps" ∨ e.1.2.length = 1) ∧
    (normalizeEpsilonLabel "ab" = "eps" →
      memTransB (expandLabelsToUnitNFA faSampleModel).transitions "q1" "eps" "q2" = true) ∧
    (normalizeEpsilonLabel "ab" ≠ "eps" → (normalizeEpsilonLabel "ab").length ≤ 1 →
      memTransB (expandLabelsToUnitNFA faSampleModel).transitions "q1"
        (normalizeEpsilonLabel "ab") "q2" = true) ∧
    (normalizeEpsilonLabel "ab" ≠ "eps" → 1 < (normalizeEpsilonLabel "ab").length →
      IsChainVia (expandLabelsToUnitNFA faSampleModel).transitions "q1"
        (normalizeEpsilonLabel "ab").data "q2") :=
  expandLabels_unit_and_chains faSampleModel "q1" "ab" ["q2"] "q2" (by decide) (by decide)

/-! ## C7 : idempotence of the epsilon closure -/

theorem mem_insertSorted :
    ∀ (l : List String) (x y : String), x ∈ insertSorted y l ↔ x = y ∨ x ∈ l := by
  intro l
  induction l with
  | nil => intro x y; simp [insertSorted]
  | cons z rest ih =>
    intro x y
    by_cases h : strLeB y z = true
    · simp [insertSorted, h]
    · have hu : insertSorted y (z :: rest) = z :: insertSorted y rest := by
        simp [insertSorted, h]
      rw [hu, List.mem_cons, ih, List.mem_cons]
      tauto

theorem length_insertSorted :
    ∀ (l : List String) (y : String), (insertSorted y l).length = l.length + 1 := by
  intro l
  induction l with
  | nil => intro y; rfl
  | cons z rest ih =>
    intro y
    by_cases h : strLeB y z = true
    · simp [insertSorted, h]
    · simp [insertSorted, h, ih]

theorem mem_finSortedList (S : Finset String) (x : String) :
    x ∈ finSortedList S ↔ x ∈ S := by
  have H : ∀ (s : Multiset String), x ∈ Multiset.foldr insertSorted [] s ↔ x ∈ s := by
    intro s
    induction s using Multiset.induction_on with
    | empty => simp
    | cons y s ih =>
      rw [Multiset.foldr_cons, mem_insertSorted, Multiset.mem_cons, ih]
  exact (H S.val).trans (Finset.mem_def).symm

theorem length_finSortedList (S : Finset String) :
    (finSortedList S).length = S.card := by
  have H : ∀ (s : Multiset String), (Multiset.foldr insertSorted [] s).length =
      Multiset.card s := by
    intro s
    induction s using Multiset.induction_on with
    | empty => simp
    | cons y s ih =>
      rw [Multiset.foldr_cons, length_insertSorted, Multiset.card_cons, ih]
  exact H S.val

theorem finSortedList_empty : finSortedList (∅ : Finset String) = [] := rfl

theorem epsAbsorb_closure_subset :
    ∀ (elems : List String) (closure : Finset String) (stack : List String),
      closure ⊆ (epsAbsorb closure stack elems).1 := by
  intro elems
  induction elems with
  | nil => intro closure stack; exact Finset.Subset.refl _
  | cons n rest ih =>
    intro closure stack
    unfold epsAbsorb at ih ⊢
    rw [List.foldl_cons]
    by_cases hn : n ∈ closure
    · rw [if_pos hn]; exact ih closure stack
    · rw [if_neg hn]
      exact fun x hx => ih _ _ (Finset.mem_insert_of_mem hx)

theorem epsAbsorb_closure_bound :
    ∀ (elems : List String) (closure : Finset String) (stack : List String),
      (epsAbsorb closure stack elems).1 ⊆ closure ∪ elems.toFinset := by
  intro elems
  induction elems with
  | nil =>
    intro closure stack
    exact fun x hx => Finset.mem_union_left _ hx
  | cons n rest ih =>
    intro closure stack
    unfold epsAbsorb at ih ⊢
    rw [List.foldl_cons]
    by_cases hn : n ∈ closure
    · rw [if_pos hn]
      intro x hx
      rcases Finset.mem_union.mp (ih closure stack hx) with h | h
      · exact Finset.mem_union_left _ h
      · exact Finset.mem_union_right _ (by simp [List.mem_toFinset] at h ⊢; right; exact h)
    · rw [if_neg hn]
      intro x hx
      rcases Finset.mem_union.mp (ih _ _ hx) with h | h
      · rcases Finset.mem_insert.mp h with rfl | h2
        · exact Finset.mem_union_right _ (by simp)
        · exact Finset.mem_union_left _ h2
      · exact Finset.mem_union_right _ (by simp [List.mem_toFinset] at h ⊢; right; exact h)

theorem epsAbsorb_elems_subset :
    ∀ (elems : List String) (closure : Finset String) (stack : List String),
      ∀ n ∈ elems, n ∈ (epsAbsorb closure stack elems).1 := by
  intro elems
  induction elems with
  | nil => intro closure stack n hn; simp at hn
  | cons n0 rest ih =>
    intro closure stack n hn
    unfold epsAbsorb at ih ⊢
    rw [List.foldl_cons]
    rcases List.mem_cons.mp hn with rfl | hmem
    · by_cases h0 : n ∈ closure
      · rw [if_pos h0]
        exact epsAbsorb_closure_subset rest closure stack h0
      · rw [if_neg h0]
        exact epsAbsorb_closure_subset rest _ _ (Finset.mem_insert_self _ _)
    · by_cases h0 : n0 ∈ closure
      · rw [if_pos h0]; exact ih _ _ _ hmem
      · rw [if_neg h0]; exact ih _ _ _ hmem

theorem epsAbsorb_stack_bound :
    ∀ (elems : List String) (closure : Finset String) (stack : List String),
      ∀ x ∈ (epsAbsorb closure stack elems).2, x ∈ stack ∨ x ∈ elems := by
  intro elems
  induction elems with
  | nil => intro closure stack x hx; exact Or.inl hx
  | cons n rest ih =>
    intro closure stack x hx
    unfold epsAbsorb at ih hx
    rw [List.foldl_cons] at hx
    by_cases hn : n ∈ closure
    · rw [if_pos hn] at hx
      rcases ih _ _ _ hx with h | h
      · exact Or.inl h
      · exact Or.inr (List.mem_cons_of_mem _ h)
    · rw [if_neg hn] at hx
      rcases ih _ _ _ hx with h | h
      · rcases List.mem_cons.mp h with rfl | h2
        · exact Or.inr (List.mem_cons_self _ _)
        · exact Or.inl h2
      · exact Or.inr (List.mem_cons_of_mem _ h)

theorem epsAbsorb_stack_mono :
    ∀ (elems : List String) (closure : Finset String) (stack : List String),
      ∀ x ∈ stack, x ∈ (epsAbsorb closure stack elems).2 := by
  intro elems
  induction elems with
  | nil => intro closure stack x hx; exact hx
  | cons n rest ih =>
    intro closure stack x hx
    unfold epsAbsorb at ih ⊢
    rw [List.foldl_cons]
    by_cases hn : n ∈ closure
    · rw [if_pos hn]; exact ih _ _ _ hx
    · rw [if_neg hn]; exact ih _ _ _ (List.mem_cons_of_mem _ hx)

theorem epsAbsorb_new_on_stack :
    ∀ (elems : List String) (closure : Finset String) (stack : List String),
      ∀ x ∈ (epsAbsorb closure stack elems).1,
        x ∈ closure ∨ x ∈ (epsAbsorb closure stack elems).2 := by
  intro elems
  induction elems with
  | nil => intro closure stack x hx; exact Or.inl hx
  | cons n rest ih =>
    intro closure stack x hx
    unfold epsAbsorb at ih hx ⊢
    rw [List.foldl_cons] at hx ⊢
    by_cases hn : n ∈ closure
    · rw [if_pos hn] at hx ⊢; exact ih _ _ _ hx
    · rw [if_neg hn] at hx ⊢
      rcases ih _ _ _ hx with h | h
      · rcases Finset.mem_insert.mp h with rfl | h2
        · exact Or.inr (epsAbsorb_stack_mono _ _ _ _ (List.mem_cons_self _ _))
        · exact Or.inl h2
      · exact Or.inr h

theorem sdiff_insert_card {α : Type} [DecidableEq α] {univ closure : Finset α} {n : α}
    (hu : n ∈ univ) (hc : n ∉ closure) :
    (univ \ insert n closure).card + 1 = (univ \ closure).card := by
  have he : univ \ insert n closure = (univ \ closure).erase n := by
    ext x
    simp only [Finset.mem_sdiff, Finset.mem_insert, Finset.mem_erase]
    constructor
    · rintro ⟨hx, hni⟩
      exact ⟨fun hcon => hni (Or.inl hcon), hx, fun hcon => hni (Or.inr hcon)⟩
    · rintro ⟨hne, hx, hnc⟩
      exact ⟨hx, fun hcon => by rcases hcon with rfl | hcon; exact hne rfl; exact hnc hcon⟩
  rw [he, Finset.card_erase_of_mem (Finset.mem_sdiff.mpr ⟨hu, hc⟩)]
  have : 0 < (univ \ closure).card := Finset.card_pos.mpr ⟨n, Finset.mem_sdiff.mpr ⟨hu, hc⟩⟩
  omega

theorem epsAbsorb_measure {univ : Finset String} :
    ∀ (elems : List String) (closure : Finset String) (stack : List String),
      (∀ n ∈ elems, n ∈ univ) →
      (univ \ (epsAbsorb closure stack elems).1).card +
          (epsAbsorb closure stack elems).2.length ≤
        (univ \ closure).card + stack.length := by
  intro elems
  induction elems with
  | nil => intro closure stack _; exact Nat.le_refl _
  | cons n rest ih =>
    intro closure stack hu
    unfold epsAbsorb at ih ⊢
    rw [List.foldl_cons]
    by_cases hn : n ∈ closure
    · rw [if_pos hn]
      exact ih _ _ (fun x hx => hu x (List.mem_cons_of_mem _ hx))
    · rw [if_neg hn]
      have h1 := ih (insert n closure) (n :: stack)
        (fun x hx => hu x (List.mem_cons_of_mem _ hx))
      have h2 : (univ \ insert n closure).card + 1 = (univ \ closure).card :=
        sdiff_insert_card (hu n (List.mem_cons_self _ _)) hn
      simp only [List.length_cons] at h1
      dsimp only at h1 ⊢
      omega

theorem mem_epsDestUniv {T : List ((String × String) × Finset String)} :
    ∀ {k : String × String} {dset : Finset String}, (k, dset) ∈ T →
      dset ⊆ epsDestUniv T := by
  intro k dset hm
  induction T with
  | nil => simp at hm
  | cons e rest ih =>
    unfold epsDestUniv
    rw [List.foldr_cons]
    rcases List.mem_cons.mp hm with heq | hmem
    · rw [← heq]
      exact fun x hx => Finset.mem_union_left _ hx
    · exact fun x hx => Finset.mem_union_right _ (ih hmem hx)

theorem epsDests_subset_univ (T : List ((String × String) × Finset String)) (s : String) :
    epsDests T s ⊆ epsDestUniv T := by
  unfold epsDests
  cases hg : jsGet T (s, "eps") with
  | none => simp
  | some dset => exact mem_epsDestUniv (jsGet_eq_some_mem hg)

theorem epsClosureLoop_grow (T : List ((String × String) × Finset String)) :
    ∀ (fuel : Nat) (closure : Finset String) (stack : List String),
      closure ⊆ epsClosureLoop T fuel closure stack := by
  intro fuel
  induction fuel with
  | zero => intro closure stack; exact Finset.Subset.refl _
  | succ f ih =>
    intro closure stack
    cases stack with
    | nil => exact Finset.Subset.refl _
    | cons s rest =>
      rw [epsClosureLoop]
      exact (epsAbsorb_closure_subset _ _ _).trans (ih _ _)

theorem epsClosureLoop_minimal (T : List ((String × String) × Finset String))
    (C : Finset String) (hC : ∀ x ∈ C, epsDests T x ⊆ C) :
    ∀ (fuel : Nat) (closure : Finset String) (stack : List String),
      closure ⊆ C → (∀ x ∈ stack, x ∈ C) →
      epsClosureLoop T fuel closure stack ⊆ C := by
  intro fuel
  induction fuel with
  | zero => intro closure stack hcl _; exact hcl
  | succ f ih =>
    intro closure stack hcl hst
    cases stack with
    | nil => exact hcl
    | cons s rest =>
      rw [epsClosureLoop]
      apply ih
      · intro x hx
        rcases Finset.mem_union.mp (epsAbsorb_closure_bound _ _ _ hx) with h | h
        · exact hcl h
        · rw [List.mem_toFinset, mem_finSortedList] at h
          exact hC s (hst s (List.mem_cons_self _ _)) h
      · intro x hx
        rcases epsAbsorb_stack_bound _ _ _ _ hx with h | h
        · exact hst x (List.mem_cons_of_mem _ h)
        · rw [mem_finSortedList] at h
          exact hC s (hst s (List.mem_cons_self _ _)) h

theorem epsClosureLoop_closed (T : List ((String × String) × Finset String)) :
    ∀ (fuel : Nat) (closure : Finset String) (stack : List String),
      (epsDestUniv T \ closure).card + stack.length ≤ fuel →
      (∀ x ∈ closure, x ∈ stack ∨ epsDests T x ⊆ closure) →
      ∀ x ∈ epsClosureLoop T fuel closure stack,
        epsDests T x ⊆ epsClosureLoop T fuel closure stack := by
  intro fuel
  induction fuel with
  | zero =>
    intro closure stack hfuel hinv x hx
    have hstack : stack = [] := List.length_eq_zero.mp (by omega)
    subst hstack
    rcases hinv x hx with h | h
    · simp at h
    · exact h
  | succ f ih =>
    intro closure stack hfuel hinv
    cases stack with
    | nil =>
      intro x hx
      rcases hinv x hx with h | h
      · simp at h
      · exact h
    | cons s rest =>
      rw [epsClosureLoop]
      apply ih
      · have hm := epsAbsorb_measure (finSortedList (epsDests T s)) closure rest
          (fun n hn => epsDests_subset_univ T s (by rwa [mem_finSortedList] at hn))
        simp only [List.length_cons] at hfuel
        omega
      · intro x hx
        rcases epsAbsorb_new_on_stack _ _ _ _ hx with hold | hnew
        · rcases hinv x hold with hstk | hsub
          · rcases List.mem_cons.mp hstk with rfl | h2
            · right
              intro y hy
              exact epsAbsorb_elems_subset _ _ _ y (by rwa [mem_finSortedList])
            · left; exact epsAbsorb_stack_mono _ _ _ _ h2
          · right
            exact hsub.trans (epsAbsorb_closure_subset _ _ _)
        · left; exact hnew

/-- C7: the epsilon closure is idempotent:
`epsilon_closure(epsilon_closure(S)) = epsilon_closure(S)` for every
epsilon-transition map and every state set `S`. -/
theorem epsilonClosure_idempotent (T : List ((String × String) × Finset String))
    (S : Finset String) :
    epsilonClosure T (epsilonClosure T S) = epsilonClosure T S := by
  have hclosed : ∀ x ∈ epsilonClosure T S, epsDests T x ⊆ epsilonClosure T S := by
    apply epsClosureLoop_closed
    · rw [length_finSortedList]
      omega
    · intro x hx
      left
      rw [mem_finSortedList]
      exact hx
  apply Finset.Subset.antisymm
  · apply epsClosureLoop_minimal T (epsilonClosure T S) hclosed
    · exact Finset.Subset.refl _
    · intro x hx
      rwa [mem_finSortedList] at hx
  · exact epsClosureLoop_grow T _ _ _

/-! ## C10 : completeness of the subset-construction DFA -/

theorem joinAmp_long {l : List String} (x y : String) (rest : List String)
    (hl : l = x :: y :: rest) (hx : x ≠ "") : 2 ≤ (joinAmp l).length := by
  subst hl
  show 2 ≤ (x ++ "&" ++ joinAmp (y :: rest)).length
  rw [String.length_append, String.length_append]
  have h1 : 0 < x.length := strLength_pos hx
  have h2 : ("&" : String).length = 1 := rfl
  omega

theorem setKey_empty : setKey (∅ : Finset String) = "∅" := by decide

theorem setKey_eq_emptyKey_iff {S univ : Finset String}
    (huniv : ∀ x ∈ univ, x ≠ "" ∧ x ≠ "∅") (hS : S ⊆ univ) :
    setKey S = "∅" ↔ S = ∅ := by
  constructor
  · intro hk
    by_contra hne
    have hsort : finSortedList S ≠ [] := by
      intro hcon
      apply hne
      ext x
      simp only [Finset.not_mem_empty, iff_false]
      intro hx
      have : x ∈ finSortedList S := (mem_finSortedList _ _).mpr hx
      rw [hcon] at this
      simp at this
    have helem : ∀ x ∈ finSortedList S, x ≠ "" ∧ x ≠ "∅" := by
      intro x hx
      exact huniv x (hS ((mem_finSortedList _ _).mp hx))
    unfold setKey at hk
    cases hls : finSortedList S with
    | nil => exact hsort hls
    | cons x rest =>
      cases rest with
      | nil =>
        have hxp := helem x (by rw [hls]; exact List.mem_cons_self _ _)
        rw [hls] at hk
        show False
        have hj : joinAmp [x] = x := rfl
        rw [hj] at hk
        rw [if_neg hxp.1] at hk
        exact hxp.2 hk
      | cons y rest2 =>
        have hxp := helem x (by rw [hls]; exact List.mem_cons_self _ _)
        have hlen := joinAmp_long x y rest2 rfl hxp.1
        rw [hls] at hk
        have hjne : joinAmp (x :: y :: rest2) ≠ "" := by
          intro hcon
          rw [hcon] at hlen
          simp at hlen
        rw [if_neg hjne] at hk
        have : (joinAmp (x :: y :: rest2)).length = ("∅" : String).length := by rw [hk]
        have h1 : ("∅" : String).length = 1 := rfl
        omega
  · rintro rfl
    exact setKey_empty

theorem epsilonClosure_subset (T : List ((String × String) × Finset String))
    (S : Finset String) : epsilonClosure T S ⊆ S ∪ epsDestUniv T := by
  apply epsClosureLoop_minimal
  · intro x _ y hy
    exact Finset.mem_union_right _ (epsDests_subset_univ T x hy)
  · exact fun x hx => Finset.mem_union_left _ hx
  · intro x hx
    exact Finset.mem_union_left _ ((mem_finSortedList _ _).mp hx)

theorem epsilonClosure_empty (T : List ((String × String) × Finset String)) :
    epsilonClosure T ∅ = ∅ := by
  apply Finset.Subset.antisymm
  · have h := epsilonClosure_subset T ∅
    intro x hx
    -- closure of the empty set from the empty stack: the loop returns at once
    unfold epsilonClosure at hx
    rw [finSortedList_empty] at hx
    rw [Finset.card_empty] at hx
    simp [epsClosureLoop] at hx
  · exact Finset.empty_subset _

theorem nfaMove_empty (T : List ((String × String) × Finset String)) (a : String) :
    nfaMove T ∅ a = ∅ := by
  unfold nfaMove
  exact Finset.biUnion_empty

theorem nfaMove_subset (T : List ((String × String) × Finset String))
    (S : Finset String) (a : String) : nfaMove T S a ⊆ epsDestUniv T := by
  intro x hx
  rcases Finset.mem_biUnion.mp hx with ⟨s, _, hin⟩
  revert hin
  cases hg : jsGet T (s, a) with
  | none => intro hin; simp at hin
  | some dset => intro hin; exact mem_epsDestUniv (jsGet_eq_some_mem hg) hin

theorem nodupKeys_value_unique {α β : Type} [DecidableEq α] :
    ∀ {m : List (α × β)}, (m.map (·.1)).Nodup →
      ∀ {k : α} {v1 v2 : β}, (k, v1) ∈ m → (k, v2) ∈ m → v1 = v2 := by
  intro m
  induction m with
  | nil => intro _ k v1 v2 h1 _; simp at h1
  | cons p rest ih =>
    intro hnd k v1 v2 h1 h2
    rw [List.map_cons, List.nodup_cons] at hnd
    rcases List.mem_cons.mp h1 with rfl | hm1
    · rcases List.mem_cons.mp h2 with heq | hm2
      · cases heq; rfl
      · exact absurd (List.mem_map.mpr ⟨(k, v2), hm2, rfl⟩) hnd.1
    · rcases List.mem_cons.mp h2 with rfl | hm2
      · exact absurd (List.mem_map.mpr ⟨(k, v1), hm1, rfl⟩) hnd.1
      · exact ih hnd.2 hm1 hm2

theorem jsSet_of_get_none {α β : Type} [DecidableEq α] {m : List (α × β)} {k : α}
    (v : β) (h : jsGet m k = none) : jsSet m k v = m ++ [(k, v)] := by
  unfold jsSet
  rw [if_neg]
  intro hcon
  rcases List.any_eq_true.mp hcon with ⟨p, hp, hpk⟩
  simp only [decide_eq_true_eq] at hpk
  have : m.find? (fun p => decide (p.1 = k)) = none := jsGet_eq_none_of_find?_none h
  have := List.find?_eq_none.mp this p hp
  simp [hpk] at this

theorem jsGet_append_single_ne {α β : Type} [DecidableEq α] {m : List (α × β)}
    {k q : α} {v : β} (h : q ≠ k) : jsGet (m ++ [(k, v)]) q = jsGet m q := by
  unfold jsGet
  rw [List.find?_append]
  have : List.find? (fun p => decide (p.1 = q)) [(k, v)] = none := by
    simp [Ne.symm h]
  rw [this]
  cases m.find? (fun p => decide (p.1 = q)) <;> rfl

theorem jsGet_append_single_self {α β : Type} [DecidableEq α] {m : List (α × β)}
    {k : α} {v : β} (h : jsGet m k = none) : jsGet (m ++ [(k, v)]) k = some v := by
  unfold jsGet
  rw [List.find?_append, jsGet_eq_none_of_find?_none h]
  simp

theorem jsGet_none_of_keys_notin {α β : Type} [DecidableEq α] {m : List (α × β)}
    {k : α} (h : ∀ e ∈ m, e.1 ≠ k) : jsGet m k = none := by
  unfold jsGet
  rw [List.find?_eq_none.mpr]
  · rfl
  · intro p hp
    simp only [decide_eq_true_eq]
    exact h p hp

theorem key_notin_of_jsGet_none {α β : Type} [DecidableEq α] {m : List (α × β)}
    {k : α} (h : jsGet m k = none) : k ∉ m.map (·.1) := by
  intro hcon
  rcases List.mem_map.mp hcon with ⟨e, he, hek⟩
  have := List.find?_eq_none.mp (jsGet_eq_none_of_find?_none h) e he
  simp [hek] at this

theorem epsClosure_move_subset {T : List ((String × String) × Finset String)}
    {univ : Finset String} (hTuniv : epsDestUniv T ⊆ univ) (C : Finset String)
    (a : String) : epsilonClosure T (nfaMove T C a) ⊆ univ := by
  intro x hx
  rcases Finset.mem_union.mp (epsilonClosure_subset T _ hx) with h | h
  · exact hTuniv (nfaMove_subset T C a h)
  · exact hTuniv h

theorem detSymFold_spec (T : List ((String × String) × Finset String))
    (C univ keyUniv : Finset String) (A : List String)
    (hTuniv : epsDestUniv T ⊆ univ)
    (hkey : ∀ S : Finset String, S ⊆ univ → setKey S ∈ keyUniv) :
    ∀ (syms : List String) (acc : DetAcc),
      syms.Nodup → (∀ a ∈ syms, a ∈ A) →
      setKey C ∈ acc.seen →
      (∀ a ∈ syms, jsGet acc.trans (setKey C, a) = none) →
      (acc.trans.map (·.1)).Nodup →
      (∀ e ∈ acc.trans, e.1.1 ∈ acc.seen ∧ e.2 ∈ acc.seen ∧ e.1.2 ∈ A) →
      (∀ k, k ∈ acc.seen ↔ k ∈ acc.statesMap.map (·.1)) →
      ((acc.adds.map setKey).Nodup) →
      (∀ S ∈ acc.adds, setKey S ∈ acc.seen) →
      (acc.seen ⊆ (List.foldl (detSym T C) acc syms).seen ∧
       (∀ q : String × String, (∀ a ∈ syms, q ≠ (setKey C, a)) →
         jsGet (List.foldl (detSym T C) acc syms).trans q = jsGet acc.trans q) ∧
       (∀ a ∈ syms,
         jsGet (List.foldl (detSym T C) acc syms).trans (setKey C, a) =
           some (setKey (epsilonClosure T (nfaMove T C a))) ∧
         setKey (epsilonClosure T (nfaMove T C a)) ∈ (List.foldl (detSym T C) acc syms).seen) ∧
       ((List.foldl (detSym T C) acc syms).trans.map (·.1)).Nodup ∧
       (∀ e ∈ (List.foldl (detSym T C) acc syms).trans,
         e.1.1 ∈ (List.foldl (detSym T C) acc syms).seen ∧
         e.2 ∈ (List.foldl (detSym T C) acc syms).seen ∧ e.1.2 ∈ A) ∧
       (∀ k, k ∈ (List.foldl (detSym T C) acc syms).seen ↔
         k ∈ (List.foldl (detSym T C) acc syms).statesMap.map (·.1)) ∧
       (∀ e ∈ (List.foldl (detSym T C) acc syms).statesMap, e ∈ acc.statesMap ∨
         (e.1 = setKey e.2 ∧ e.2 ⊆ univ ∧ e.2 ∈ (List.foldl (detSym T C) acc syms).adds)) ∧
       (∀ S ∈ (List.foldl (detSym T C) acc syms).adds, S ∈ acc.adds ∨
         (S ⊆ univ ∧ setKey S ∈ (List.foldl (detSym T C) acc syms).seen ∧
          setKey S ∉ acc.seen)) ∧
       (((List.foldl (detSym T C) acc syms).adds.map setKey).Nodup) ∧
       ((keyUniv \ (List.foldl (detSym T C) acc syms).seen).card +
           (List.foldl (detSym T C) acc syms).adds.length ≤
         (keyUniv \ acc.seen).card + acc.adds.length) ∧
       (∀ S ∈ acc.adds, S ∈ (List.foldl (detSym T C) acc syms).adds) ∧
       (∀ S ∈ (List.foldl (detSym T C) acc syms).adds,
         setKey S ∈ (List.foldl (detSym T C) acc syms).seen)) := by
  intro syms
  induction syms with
  | nil =>
    intro acc _ _ _ _ pE pF pG pH pI
    refine ⟨Finset.Subset.refl _, fun q _ => rfl, fun a ha => absurd ha (by simp),
      pE, pF, pG, fun e he => Or.inl he, fun S hS => Or.inl hS, pH, Nat.le_refl _,
      fun S hS => hS, pI⟩
  | cons a rest ih =>
    intro acc pA pB pC pD pE pF pG pH pI
    have hTS : epsilonClosure T (nfaMove T C a) ⊆ univ := epsClosure_move_subset hTuniv C a
    have hKa : jsGet acc.trans (setKey C, a) = none := pD a (List.mem_cons_self a rest)
    have htr1 : jsSet acc.trans (setKey C, a) (setKey (epsilonClosure T (nfaMove T C a))) =
        acc.trans ++ [((setKey C, a), setKey (epsilonClosure T (nfaMove T C a)))] :=
      jsSet_of_get_none _ hKa
    have hKey_notin : (setKey C, a) ∉ acc.trans.map (·.1) := key_notin_of_jsGet_none hKa
    rw [List.foldl_cons]
    by_cases hseen : setKey (epsilonClosure T (nfaMove T C a)) ∈ acc.seen
    · -- target key already seen: only the transition entry is appended
      have hstep : detSym T C acc a =
          { acc with trans := acc.trans ++
              [((setKey C, a), setKey (epsilonClosure T (nfaMove T C a)))] } := by
        unfold detSym
        simp only [htr1]
        rw [if_pos hseen]
      rw [hstep]
      have hrest := ih { acc with trans := acc.trans ++
          [((setKey C, a), setKey (epsilonClosure T (nfaMove T C a)))] }
        (List.nodup_cons.mp pA).2
        (fun b hb => pB b (List.mem_cons_of_mem _ hb))
        pC
        (fun b hb => by
          have hne : (setKey C, b) ≠ (setKey C, a) := by
            intro hcon
            have : b = a := congrArg Prod.snd hcon
            exact (List.nodup_cons.mp pA).1 (this ▸ hb)
          show jsGet (acc.trans ++ [((setKey C, a), _)]) (setKey C, b) = none
          rw [jsGet_append_single_ne hne]
          exact pD b (List.mem_cons_of_mem _ hb))
        (by
          show ((acc.trans ++
            [((setKey C, a), setKey (epsilonClosure T (nfaMove T C a)))]).map (·.1)).Nodup
          rw [List.map_append]
          simp only [List.map_cons, List.map_nil]
          rw [List.nodup_append]
          exact ⟨pE, List.nodup_singleton _, by
            intro x hx hy
            simp only [List.mem_singleton] at hy
            subst hy
            exact hKey_notin hx⟩)
        (by
          intro e he
          rcases List.mem_append.mp he with hm | hm
          · exact pF e hm
          · simp only [List.mem_singleton] at hm
            subst hm
            exact ⟨pC, hseen, pB a (List.mem_cons_self a rest)⟩)
        pG pH pI
      obtain ⟨c1, c2, c3, c4, c5, c6, c7, c8, c9, c10, c11, c12⟩ := hrest
      refine ⟨c1, ?_, ?_, c4, c5, c6, c7, c8, c9, c10, c11, c12⟩
      · intro q hq
        rw [c2 q (fun b hb => hq b (List.mem_cons_of_mem _ hb))]
        exact jsGet_append_single_ne (hq a (List.mem_cons_self a rest))
      · intro b hb
        rcases List.mem_cons.mp hb with rfl | hb2
        · have hqb : ∀ c ∈ rest, (setKey C, b) ≠ (setKey C, c) := by
            intro c hc hcon
            apply (List.nodup_cons.mp pA).1
            rw [show b = c from congrArg Prod.snd hcon]
            exact hc
          constructor
          · rw [c2 (setKey C, b) hqb]
            exact jsGet_append_single_self hKa
          · exact c1 hseen
        · exact c3 b hb2
    · -- fresh target key: entry appended, key seen, subset stored and enqueued
      have hstep : detSym T C acc a =
          { trans := acc.trans ++
              [((setKey C, a), setKey (epsilonClosure T (nfaMove T C a)))]
            seen := insert (setKey (epsilonClosure T (nfaMove T C a))) acc.seen
            statesMap := acc.statesMap ++
              [(setKey (epsilonClosure T (nfaMove T C a)), epsilonClosure T (nfaMove T C a))]
            adds := acc.adds ++ [epsilonClosure T (nfaMove T C a)] } := by
        unfold detSym
        simp only [htr1]
        rw [if_neg hseen]
      rw [hstep]
      have hrest := ih
        { trans := acc.trans ++
            [((setKey C, a), setKey (epsilonClosure T (nfaMove T C a)))]
          seen := insert (setKey (epsilonClosure T (nfaMove T C a))) acc.seen
          statesMap := acc.statesMap ++
            [(setKey (epsilonClosure T (nfaMove T C a)), epsilonClosure T (nfaMove T C a))]
          adds := acc.adds ++ [epsilonClosure T (nfaMove T C a)] }
        (List.nodup_cons.mp pA).2
        (fun b hb => pB b (List.mem_cons_of_mem _ hb))
        (Finset.mem_insert_of_mem pC)
        (fun b hb => by
          have hne : (setKey C, b) ≠ (setKey C, a) := by
            intro hcon
            have : b = a := congrArg Prod.snd hcon
            exact (List.nodup_cons.mp pA).1 (this ▸ hb)
          show jsGet (acc.trans ++ [((setKey C, a), _)]) (setKey C, b) = none
          rw [jsGet_append_single_ne hne]
          exact pD b (List.mem_cons_of_mem _ hb))
        (by
          show ((acc.trans ++
            [((setKey C, a), setKey (epsilonClosure T (nfaMove T C a)))]).map (·.1)).Nodup
          rw [List.map_append]
          simp only [List.map_cons, List.map_nil]
          rw [List.nodup_append]
          exact ⟨pE, List.nodup_singleton _, by
            intro x hx hy
            simp only [List.mem_singleton] at hy
            subst hy
            exact hKey_notin hx⟩)
        (by
          intro e he
          rcases List.mem_append.mp he with hm | hm
          · have h0 := pF e hm
            exact ⟨Finset.mem_insert_of_mem h0.1, Finset.mem_insert_of_mem h0.2.1, h0.2.2⟩
          · simp only [List.mem_singleton] at hm
            subst hm
            exact ⟨Finset.mem_insert_of_mem pC, Finset.mem_insert_self _ _,
              pB a (List.mem_cons_self a rest)⟩)
        (by
          intro k
          simp only [Finset.mem_insert, List.map_append, List.map_cons, List.map_nil,
            List.mem_append, List.mem_singleton]
          rw [pG k]
          tauto)
        (by
          rw [List.map_append]
          simp only [List.map_cons, List.map_nil]
          rw [List.nodup_append]
          refine ⟨pH, List.nodup_singleton _, ?_⟩
          intro x hx hy
          simp only [List.mem_singleton] at hy
          subst hy
          rcases List.mem_map.mp hx with ⟨S, hS, hSk⟩
          exact hseen (hSk ▸ pI S hS))
        (by
          intro S hS
          rcases List.mem_append.mp hS with hm | hm
          · exact Finset.mem_insert_of_mem (pI S hm)
          · simp only [List.mem_singleton] at hm
            subst hm
            exact Finset.mem_insert_self _ _)
      obtain ⟨c1, c2, c3, c4, c5, c6, c7, c8, c9, c10, c11, c12⟩ := hrest
      have hTKuniv : setKey (epsilonClosure T (nfaMove T C a)) ∈ keyUniv := hkey _ hTS
      refine ⟨?_, ?_, ?_, c4, c5, c6, ?_, ?_, c9, ?_, ?_, c12⟩
      · exact (Finset.subset_insert _ _).trans c1
      · intro q hq
        rw [c2 q (fun b hb => hq b (List.mem_cons_of_mem _ hb))]
        exact jsGet_append_single_ne (hq a (List.mem_cons_self a rest))
      · intro b hb
        rcases List.mem_cons.mp hb with rfl | hb2
        · have hqb : ∀ c ∈ rest, (setKey C, b) ≠ (setKey C, c) := by
            intro c hc hcon
            apply (List.nodup_cons.mp pA).1
            rw [show b = c from congrArg Prod.snd hcon]
            exact hc
          constructor
          · rw [c2 (setKey C, b) hqb]
            exact jsGet_append_single_self hKa
          · exact c1 (Finset.mem_insert_self _ _)
        · exact c3 b hb2
      · intro e he
        rcases c7 e he with hm | hnew
        · rcases List.mem_append.mp hm with hm2 | hm2
          · exact Or.inl hm2
          · simp only [List.mem_singleton] at hm2
            subst hm2
            refine Or.inr ⟨rfl, hTS, ?_⟩
            exact c11 _ (List.mem_append.mpr (Or.inr (List.mem_singleton.mpr rfl)))
        · exact Or.inr hnew
      · intro S hS
        rcases c8 S hS with hm | hnew
        · rcases List.mem_append.mp hm with hm2 | hm2
          · exact Or.inl hm2
          · simp only [List.mem_singleton] at hm2
            subst hm2
            refine Or.inr ⟨hTS, c1 (Finset.mem_insert_self _ _), hseen⟩
        · refine Or.inr ⟨hnew.1, hnew.2.1, ?_⟩
          intro hcon
          exact hnew.2.2 (Finset.mem_insert_of_mem hcon)
      · have hc10 := c10
        dsimp only at hc10
        rw [List.length_append, List.length_cons, List.length_nil] at hc10
        have hins := @sdiff_insert_card String _ keyUniv _ _ hTKuniv hseen
        omega
      · intro S hS
        exact c11 S (List.mem_append.mpr (Or.inl hS))

theorem detLoop_spec (T : List ((String × String) × Finset String)) (A : List String)
    (univ keyUniv : Finset String) (hTuniv : epsDestUniv T ⊆ univ)
    (hkey : ∀ S : Finset String, S ⊆ univ → setKey S ∈ keyUniv) (hAnd : A.Nodup) :
    ∀ (fuel : Nat) (queue : List (Finset String)) (acc : DetAcc),
      (keyUniv \ acc.seen).card + queue.length ≤ fuel →
      ((acc.trans.map (·.1)).Nodup) →
      (∀ S ∈ queue, setKey S ∈ acc.seen ∧ S ⊆ univ) →
      ((queue.map setKey).Nodup) →
      (∀ S ∈ queue, ∀ a, jsGet acc.trans (setKey S, a) = none) →
      (∀ e ∈ acc.trans, e.1.1 ∈ acc.seen ∧ e.2 ∈ acc.seen ∧ e.1.2 ∈ A) →
      (∀ k, k ∈ acc.seen ↔ k ∈ acc.statesMap.map (·.1)) →
      (∀ e ∈ acc.statesMap, e.1 = setKey e.2 ∧ e.2 ⊆ univ ∧
        (e.2 ∈ queue ∨ ∀ a ∈ A,
          jsGet acc.trans (e.1, a) = some (setKey (epsilonClosure T (nfaMove T e.2 a))) ∧
          setKey (epsilonClosure T (nfaMove T e.2 a)) ∈ acc.seen)) →
      (((detLoop T A fuel queue acc).trans.map (·.1)).Nodup ∧
       (∀ k, k ∈ (detLoop T A fuel queue acc).seen ↔
         k ∈ (detLoop T A fuel queue acc).statesMap.map (·.1)) ∧
       (∀ e ∈ (detLoop T A fuel queue acc).trans,
         e.1.1 ∈ (detLoop T A fuel queue acc).seen ∧
         e.2 ∈ (detLoop T A fuel queue acc).seen ∧ e.1.2 ∈ A) ∧
       (∀ e ∈ (detLoop T A fuel queue acc).statesMap,
         e.1 = setKey e.2 ∧ e.2 ⊆ univ ∧
         ∀ a ∈ A, jsGet (detLoop T A fuel queue acc).trans (e.1, a) =
             some (setKey (epsilonClosure T (nfaMove T e.2 a))) ∧
           setKey (epsilonClosure T (nfaMove T e.2 a)) ∈ (detLoop T A fuel queue acc).seen)) := by
  intro fuel
  induction fuel with
  | zero =>
    intro queue acc hfuel hN hQ hQ2 hQ3 hT1 hSM3 hSM2
    have hq0 : queue = [] := List.length_eq_zero.mp (by omega)
    subst hq0
    refine ⟨hN, hSM3, hT1, ?_⟩
    intro e he
    rcases hSM2 e he with ⟨h1, h2, h3 | h3⟩
    · simp at h3
    · exact ⟨h1, h2, h3⟩
  | succ f ih =>
    intro queue acc hfuel hN hQ hQ2 hQ3 hT1 hSM3 hSM2
    cases queue with
    | nil =>
      refine ⟨hN, hSM3, hT1, ?_⟩
      intro e he
      rcases hSM2 e he with ⟨h1, h2, h3 | h3⟩
      · simp at h3
      · exact ⟨h1, h2, h3⟩
    | cons C rest =>
      rw [detLoop]
      unfold detStep
      have hspec := detSymFold_spec T C univ keyUniv A hTuniv hkey A
        { acc with adds := [] } hAnd (fun a ha => ha)
        (hQ C (List.mem_cons_self _ _)).1
        (fun a _ => hQ3 C (List.mem_cons_self _ _) a)
        hN hT1 hSM3 (by simp) (by simp)
      obtain ⟨c1, c2, c3, c4, c5, c6, c7, c8, c9, c10, c11, c12⟩ := hspec
      have hCseen : setKey C ∈ acc.seen := (hQ C (List.mem_cons_self _ _)).1
      have hKeyC_ne_rest : ∀ S ∈ rest, setKey S ≠ setKey C := by
        intro S hS hcon
        have h1 := hQ2
        rw [List.map_cons, List.nodup_cons] at h1
        exact h1.1 (hcon ▸ List.mem_map.mpr ⟨S, hS, rfl⟩)
      apply ih
      · rw [List.length_append]
        have hc10 := c10
        simp only [List.length_nil] at hc10
        simp only [List.length_cons] at hfuel
        omega
      · exact c4
      · intro S hS
        rcases List.mem_append.mp hS with hm | hm
        · exact ⟨c1 (hQ S (List.mem_cons_of_mem _ hm)).1, (hQ S (List.mem_cons_of_mem _ hm)).2⟩
        · rcases c8 S hm with h0 | h0
          · simp at h0
          · exact ⟨h0.2.1, h0.1⟩
      · rw [List.map_append, List.nodup_append]
        refine ⟨?_, c9, ?_⟩
        · have h1 := hQ2
          rw [List.map_cons, List.nodup_cons] at h1
          exact h1.2
        · intro x hx hy
          rcases List.mem_map.mp hx with ⟨S, hS, rfl⟩
          rcases List.mem_map.mp hy with ⟨S2, hS2, hk2⟩
          rcases c8 S2 hS2 with h0 | h0
          · simp at h0
          · exact h0.2.2 (hk2 ▸ (hQ S (List.mem_cons_of_mem _ hS)).1)
      · intro S hS a
        rcases List.mem_append.mp hS with hm | hm
        · rw [c2 (setKey S, a) (fun b _ => by
            intro hcon
            have hk : setKey S = setKey C := congrArg Prod.fst hcon
            exact hKeyC_ne_rest S hm hk)]
          exact hQ3 S (List.mem_cons_of_mem _ hm) a
        · have hfresh : setKey S ∉ acc.seen := by
            rcases c8 S hm with h0 | h0
            · simp at h0
            · exact h0.2.2
          rw [c2 (setKey S, a) (fun b _ => by
            intro hcon
            apply hfresh
            have hk : setKey S = setKey C := congrArg Prod.fst hcon
            rw [hk]
            exact hCseen)]
          apply jsGet_none_of_keys_notin
          intro e he hcon
          apply hfresh
          have hk : e.1.1 = setKey S := congrArg Prod.fst hcon
          rw [← hk]
          exact (hT1 e he).1
      · exact c5
      · exact c6
      · intro e he
        rcases c7 e he with hm | hnew
        · rcases hSM2 e hm with ⟨h1, h2, h3 | h3⟩
          · rcases List.mem_cons.mp h3 with hC | hr
            · refine ⟨h1, h2, Or.inr ?_⟩
              intro a ha
              rw [h1, hC]
              exact c3 a ha
            · exact ⟨h1, h2, Or.inl (List.mem_append.mpr (Or.inl hr))⟩
          · refine ⟨h1, h2, Or.inr ?_⟩
            intro a ha
            have hdone := h3 a ha
            have hne : e.1 ≠ setKey C := by
              intro hcon
              have := hQ3 C (List.mem_cons_self _ _) a
              rw [← hcon] at this
              rw [this] at hdone
              cases hdone.1
            rw [c2 (e.1, a) (fun b _ => by
              intro hcon
              have hk : e.1 = setKey C := congrArg Prod.fst hcon
              exact hne hk)]
            exact ⟨hdone.1, c1 hdone.2⟩
        · exact ⟨hnew.1, hnew.2.1, Or.inl (List.mem_append.mpr (Or.inr hnew.2.2))⟩

theorem nodup_insertSorted :
    ∀ (l : List String) (y : String), y ∉ l → l.Nodup → (insertSorted y l).Nodup := by
  intro l
  induction l with
  | nil => intro y _ _; exact List.nodup_singleton _
  | cons z rest ih =>
    intro y hy hnd
    rw [List.nodup_cons] at hnd
    by_cases h : strLeB y z = true
    · have hu : insertSorted y (z :: rest) = y :: z :: rest := by simp [insertSorted, h]
      rw [hu, List.nodup_cons, List.nodup_cons]
      exact ⟨hy, hnd⟩
    · have hu : insertSorted y (z :: rest) = z :: insertSorted y rest := by
        simp [insertSorted, h]
      rw [hu, List.nodup_cons]
      constructor
      · rw [mem_insertSorted]
        rintro (rfl | hm)
        · exact hy (List.mem_cons_self _ _)
        · exact hnd.1 hm
      · exact ih y (fun hm => hy (List.mem_cons_of_mem _ hm)) hnd.2

theorem nodup_finSortedList (S : Finset String) : (finSortedList S).Nodup := by
  have H : ∀ (s : Multiset String), s.Nodup → (Multiset.foldr insertSorted [] s).Nodup := by
    intro s
    induction s using Multiset.induction_on with
    | empty => intro _; exact List.nodup_nil
    | cons y s ih =>
      intro hnd
      rw [Multiset.nodup_cons] at hnd
      rw [Multiset.foldr_cons]
      apply nodup_insertSorted
      · intro hm
        have H2 : ∀ (t : Multiset String), y ∈ Multiset.foldr insertSorted [] t → y ∈ t := by
          intro t
          induction t using Multiset.induction_on with
          | empty => intro h0; simp at h0
          | cons z t iht =>
            intro h0
            rw [Multiset.foldr_cons, mem_insertSorted] at h0
            rcases h0 with rfl | h0
            · exact Multiset.mem_cons_self _ _
            · exact Multiset.mem_cons_of_mem (iht h0)
        exact hnd.1 (H2 s hm)
      · exact ih hnd.2
  exact H S.val S.nodup

/-- C10: the subset-construction DFA is complete. Every discovered state
has, for every alphabet symbol, exactly one outgoing transition in the
transition map; whenever a discovered subset has an empty (epsilon-closed)
move on some symbol, the empty subset's canonical state `∅` is in the
state set; and — when no NFA state is named `""` or `"∅"` — that `∅`
state maps to itself under every alphabet symbol. -/
theorem determinize_complete (nfaU : NFAUnit) :
    (∀ k ∈ (determinizeNFA nfaU).states, ∀ a ∈ (determinizeNFA nfaU).alphabet,
      ∃! v, ((k, a), v) ∈ (determinizeNFA nfaU).transitions) ∧
    (∀ e ∈ (determinizeAcc nfaU).statesMap, ∀ a ∈ (determinizeNFA nfaU).alphabet,
      epsilonClosure nfaU.transitions (nfaMove nfaU.transitions e.2 a) = ∅ →
      "∅" ∈ (determinizeNFA nfaU).states) ∧
    ((∀ x ∈ nfaStateUniv nfaU, x ≠ "" ∧ x ≠ "∅") →
      "∅" ∈ (determinizeNFA nfaU).states →
      ∀ a ∈ (determinizeNFA nfaU).alphabet,
        (("∅", a), "∅") ∈ (determinizeNFA nfaU).transitions) := by
  have hstart_sub : detStartSet nfaU ⊆ nfaStateUniv nfaU := by
    intro x hx
    rcases Finset.mem_union.mp (epsilonClosure_subset _ _ hx) with h | h
    · rcases Finset.mem_singleton.mp h with rfl
      exact Finset.mem_insert_self _ _
    · exact Finset.mem_insert_of_mem h
  have hspec := detLoop_spec nfaU.transitions (detAlphabetList nfaU) (nfaStateUniv nfaU)
    (detKeyUniv nfaU)
    (fun x hx => Finset.mem_insert_of_mem hx)
    (fun S hS => Finset.mem_image.mpr ⟨S, Finset.mem_powerset.mpr hS, rfl⟩)
    ((nodup_finSortedList _).filter _)
    ((detKeyUniv nfaU \ {setKey (detStartSet nfaU)}).card + 2)
    [detStartSet nfaU]
    { trans := []
      seen := {setKey (detStartSet nfaU)}
      statesMap := [(setKey (detStartSet nfaU), detStartSet nfaU)]
      adds := [] }
    (by simp)
    (by simp)
    (by
      intro S hS
      rcases List.mem_singleton.mp hS with rfl
      exact ⟨Finset.mem_singleton_self _, hstart_sub⟩)
    (by simp)
    (by intro S _ a; rfl)
    (by simp)
    (by intro k; simp)
    (by
      intro e he
      rcases List.mem_singleton.mp he with rfl
      exact ⟨rfl, hstart_sub, Or.inl (List.mem_singleton.mpr rfl)⟩)
  obtain ⟨hN, hSM3, hT1, hSM2⟩ := hspec
  have hdfa_states : (determinizeNFA nfaU).states =
      ((determinizeAcc nfaU).statesMap.map (·.1)).toFinset := rfl
  have hdfa_trans : (determinizeNFA nfaU).transitions = (determinizeAcc nfaU).trans := rfl
  have hdfa_alpha : (determinizeNFA nfaU).alphabet = (detAlphabetList nfaU).toFinset := rfl
  refine ⟨?_, ?_, ?_⟩
  · intro k hk a ha
    rw [hdfa_states, List.mem_toFinset] at hk
    rcases List.mem_map.mp hk with ⟨e, he, rfl⟩
    rw [hdfa_alpha, List.mem_toFinset] at ha
    have hdone := (hSM2 e he).2.2 a ha
    refine ⟨setKey (epsilonClosure nfaU.transitions (nfaMove nfaU.transitions e.2 a)), ?_, ?_⟩
    · rw [hdfa_trans]
      exact jsGet_eq_some_mem hdone.1
    · intro v hv
      rw [hdfa_trans] at hv
      exact nodupKeys_value_unique hN hv (jsGet_eq_some_mem hdone.1)
  · intro e he a ha hempty
    rw [hdfa_alpha, List.mem_toFinset] at ha
    have hdone := (hSM2 e he).2.2 a ha
    rw [hempty, setKey_empty] at hdone
    rw [hdfa_states, List.mem_toFinset]
    exact (hSM3 "∅").mp hdone.2
  · intro hne hmem a ha
    rw [hdfa_alpha, List.mem_toFinset] at ha
    rw [hdfa_states, List.mem_toFinset] at hmem
    rcases List.mem_map.mp hmem with ⟨e, he, hk⟩
    have hsm := hSM2 e he
    have hkey2 : setKey e.2 = "∅" := by rw [← hsm.1, hk]
    have hempty : e.2 = ∅ := (setKey_eq_emptyKey_iff hne hsm.2.1).mp hkey2
    have hdone := hsm.2.2 a ha
    rw [hempty, nfaMove_empty, epsilonClosure_empty, setKey_empty] at hdone
    rw [hdfa_trans]
    have := jsGet_eq_some_mem hdone.1
    rw [hsm.1, hempty] at this
    rw [setKey_empty] at this
    exact this

theorem determinize_complete_witness :
    (∃! v, (("q0", "a"), v) ∈ (determinizeNFA detSampleNFA).transitions) ∧
    "∅" ∈ (determinizeNFA detSampleNFA).states ∧
    (("∅", "a"), "∅") ∈ (determinizeNFA detSampleNFA).transitions := by
  have h := determinize_complete detSampleNFA
  refine ⟨h.1 "q0" (by decide) "a" (by decide), ?_, ?_⟩
  · exact h.2.1 ("q0", {"q0"}) (by decide) "b" (by decide) (by decide)
  · exact h.2.2 (by decide)
      (h.2.1 ("q0", {"q0"}) (by decide) "b" (by decide) (by decide)) "a" (by decide)

/-! ## C8 : fixpoint stability of minimization on an already-minimal DFA -/

theorem reachAbsorb_reach_subset :
    ∀ (elems : List String) (reach : Finset String) (queue : List String),
      reach ⊆ (reachAbsorb reach queue elems).1 := by
  intro elems
  induction elems with
  | nil => intro reach queue; exact Finset.Subset.refl _
  | cons n rest ih =>
    intro reach queue
    unfold reachAbsorb at ih ⊢
    rw [List.foldl_cons]
    by_cases hn : n ∈ reach
    · rw [if_pos hn]; exact ih reach queue
    · rw [if_neg hn]
      exact fun x hx => ih _ _ (Finset.mem_insert_of_mem hx)

theorem reachAbsorb_reach_bound :
    ∀ (elems : List String) (reach : Finset String) (queue : List String),
      (reachAbsorb reach queue elems).1 ⊆ reach ∪ elems.toFinset := by
  intro elems
  induction elems with
  | nil =>
    intro reach queue
    exact fun x hx => Finset.mem_union_left _ hx
  | cons n rest ih =>
    intro reach queue
    unfold reachAbsorb at ih ⊢
    rw [List.foldl_cons]
    by_cases hn : n ∈ reach
    · rw [if_pos hn]
      intro x hx
      rcases Finset.mem_union.mp (ih reach queue hx) with h | h
      · exact Finset.mem_union_left _ h
      · exact Finset.mem_union_right _ (by simp [List.mem_toFinset] at h ⊢; right; exact h)
    · rw [if_neg hn]
      intro x hx
      rcases Finset.mem_union.mp (ih _ _ hx) with h | h
      · rcases Finset.mem_insert.mp h with rfl | h2
        · exact Finset.mem_union_right _ (by simp)
        · exact Finset.mem_union_left _ h2
      · exact Finset.mem_union_right _ (by simp [List.mem_toFinset] at h ⊢; right; exact h)

theorem reachAbsorb_elems_subset :
    ∀ (elems : List String) (reach : Finset String) (queue : List String),
      ∀ n ∈ elems, n ∈ (reachAbsorb reach queue elems).1 := by
  intro elems
  induction elems with
  | nil => intro reach queue n hn; simp at hn
  | cons n0 rest ih =>
    intro reach queue n hn
    unfold reachAbsorb at ih ⊢
    rw [List.foldl_cons]
    rcases List.mem_cons.mp hn with rfl | hmem
    · by_cases h0 : n ∈ reach
      · rw [if_pos h0]
        exact reachAbsorb_reach_subset rest reach queue h0
      · rw [if_neg h0]
        exact reachAbsorb_reach_subset rest _ _ (Finset.mem_insert_self _ _)
    · by_cases h0 : n0 ∈ reach
      · rw [if_pos h0]; exact ih _ _ _ hmem
      · rw [if_neg h0]; exact ih _ _ _ hmem

theorem reachAbsorb_queue_bound :
    ∀ (elems : List String) (reach : Finset String) (queue : List String),
      ∀ x ∈ (reachAbsorb reach queue elems).2, x ∈ queue ∨ x ∈ elems := by
  intro elems
  induction elems with
  | nil => intro reach queue x hx; exact Or.inl hx
  | cons n rest ih =>
    intro reach queue x hx
    unfold reachAbsorb at ih hx
    rw [List.foldl_cons] at hx
    by_cases hn : n ∈ reach
    · rw [if_pos hn] at hx
      rcases ih _ _ _ hx with h | h
      · exact Or.inl h
      · exact Or.inr (List.mem_cons_of_mem _ h)
    · rw [if_neg hn] at hx
      rcases ih _ _ _ hx with h | h
      · rcases List.mem_append.mp h with h2 | h2
        · exact Or.inl h2
        · simp only [List.mem_singleton] at h2
          subst h2
          exact Or.inr (List.mem_cons_self _ _)
      · exact Or.inr (List.mem_cons_of_mem _ h)

theorem reachAbsorb_queue_mono :
    ∀ (elems : List String) (reach : Finset String) (queue : List String),
      ∀ x ∈ queue, x ∈ (reachAbsorb reach queue elems).2 := by
  intro elems
  induction elems with
  | nil => intro reach queue x hx; exact hx
  | cons n rest ih =>
    intro reach queue x hx
    unfold reachAbsorb at ih ⊢
    rw [List.foldl_cons]
    by_cases hn : n ∈ reach
    · rw [if_pos hn]; exact ih _ _ _ hx
    · rw [if_neg hn]
      exact ih _ _ _ (List.mem_append.mpr (Or.inl hx))

theorem reachAbsorb_new_on_queue :
    ∀ (elems : List String) (reach : Finset String) (queue : List String),
      ∀ x ∈ (reachAbsorb reach queue elems).1,
        x ∈ reach ∨ x ∈ (reachAbsorb reach queue elems).2 := by
  intro elems
  induction elems with
  | nil => intro reach queue x hx; exact Or.inl hx
  | cons n rest ih =>
    intro reach queue x hx
    unfold reachAbsorb at ih hx ⊢
    rw [List.foldl_cons] at hx ⊢
    by_cases hn : n ∈ reach
    · rw [if_pos hn] at hx ⊢; exact ih _ _ _ hx
    · rw [if_neg hn] at hx ⊢
      rcases ih _ _ _ hx with h | h
      · rcases Finset.mem_insert.mp h with rfl | h2
        · exact Or.inr (reachAbsorb_queue_mono _ _ _ _
            (List.mem_append.mpr (Or.inr (List.mem_singleton.mpr rfl))))
        · exact Or.inl h2
      · exact Or.inr h

theorem reachAbsorb_measure {univ : Finset String} :
    ∀ (elems : List String) (reach : Finset String) (queue : List String),
      (∀ n ∈ elems, n ∈ univ) →
      (univ \ (reachAbsorb reach queue elems).1).card +
          (reachAbsorb reach queue elems).2.length ≤
        (univ \ reach).card + queue.length := by
  intro elems
  induction elems with
  | nil => intro reach queue _; exact Nat.le_refl _
  | cons n rest ih =>
    intro reach queue hu
    unfold reachAbsorb at ih ⊢
    rw [List.foldl_cons]
    by_cases hn : n ∈ reach
    · rw [if_pos hn]
      exact ih _ _ (fun x hx => hu x (List.mem_cons_of_mem _ hx))
    · rw [if_neg hn]
      have h1 := ih (insert n reach) (queue ++ [n])
        (fun x hx => hu x (List.mem_cons_of_mem _ hx))
      have h2 : (univ \ insert n reach).card + 1 = (univ \ reach).card :=
        sdiff_insert_card (hu n (List.mem_cons_self _ _)) hn
      rw [List.length_append, List.length_cons, List.length_nil] at h1
      dsimp only at h1 ⊢
      omega

theorem mem_reachTargets {T : List ((String × String) × String)} :
    ∀ {k : String × String} {v : String}, (k, v) ∈ T → v ∈ reachTargets T := by
  intro k v hm
  induction T with
  | nil => simp at hm
  | cons e rest ih =>
    unfold reachTargets
    rw [List.foldr_cons]
    rcases List.mem_cons.mp hm with heq | hmem
    · rw [← heq]
      exact Finset.mem_insert_self _ _
    · exact Finset.mem_insert_of_mem (ih hmem)

theorem reachNexts_subset_targets (T : List ((String × String) × String))
    (A : List String) (s : String) : ∀ n ∈ reachNexts T A s, n ∈ reachTargets T := by
  intro n hn
  rcases List.mem_filterMap.mp hn with ⟨a, _, ha⟩
  revert ha
  cases hg : jsGet T (s, a) with
  | none => intro ha; simp at ha
  | some v =>
    intro ha
    dsimp only at ha
    by_cases hv : v = ""
    · rw [if_pos hv] at ha; cases ha
    · rw [if_neg hv] at ha
      cases ha
      exact mem_reachTargets (jsGet_eq_some_mem hg)

theorem reachLoop_grow (T : List ((String × String) × String)) (A : List String) :
    ∀ (fuel : Nat) (reach : Finset String) (queue : List String),
      reach ⊆ reachLoop T A fuel reach queue := by
  intro fuel
  induction fuel with
  | zero => intro reach queue; exact Finset.Subset.refl _
  | succ f ih =>
    intro reach queue
    cases queue with
    | nil => exact Finset.Subset.refl _
    | cons s rest =>
      rw [reachLoop]
      exact (reachAbsorb_reach_subset _ _ _).trans (ih _ _)

theorem reachLoop_minimal (T : List ((String × String) × String)) (A : List String)
    (C : Finset String) (hC : ∀ s ∈ C, ∀ n ∈ reachNexts T A s, n ∈ C) :
    ∀ (fuel : Nat) (reach : Finset String) (queue : List String),
      reach ⊆ C → (∀ x ∈ queue, x ∈ C) →
      reachLoop T A fuel reach queue ⊆ C := by
  intro fuel
  induction fuel with
  | zero => intro reach queue hr _; exact hr
  | succ f ih =>
    intro reach queue hr hq
    cases queue with
    | nil => exact hr
    | cons s rest =>
      rw [reachLoop]
      apply ih
      · intro x hx
        rcases Finset.mem_union.mp (reachAbsorb_reach_bound _ _ _ hx) with h | h
        · exact hr h
        · rw [List.mem_toFinset] at h
          exact hC s (hq s (List.mem_cons_self _ _)) x h
      · intro x hx
        rcases reachAbsorb_queue_bound _ _ _ _ hx with h | h
        · exact hq x (List.mem_cons_of_mem _ h)
        · exact hC s (hq s (List.mem_cons_self _ _)) x h

theorem reachLoop_closed (T : List ((String × String) × String)) (A : List String) :
    ∀ (fuel : Nat) (reach : Finset String) (queue : List String),
      (reachTargets T \ reach).card + queue.length ≤ fuel →
      (∀ x ∈ reach, x ∈ queue ∨ ∀ n ∈ reachNexts T A x, n ∈ reach) →
      ∀ x ∈ reachLoop T A fuel reach queue,
        ∀ n ∈ reachNexts T A x, n ∈ reachLoop T A fuel reach queue := by
  intro fuel
  induction fuel with
  | zero =>
    intro reach queue hfuel hinv x hx
    have hq0 : queue = [] := List.length_eq_zero.mp (by omega)
    subst hq0
    rcases hinv x hx with h | h
    · simp at h
    · exact h
  | succ f ih =>
    intro reach queue hfuel hinv
    cases queue with
    | nil =>
      intro x hx
      rcases hinv x hx with h | h
      · simp at h
      · exact h
    | cons s rest =>
      rw [reachLoop]
      apply ih
      · have hm := reachAbsorb_measure (reachNexts T A s) reach rest
          (fun n hn => reachNexts_subset_targets T A s n hn)
        simp only [List.length_cons] at hfuel
        omega
      · intro x hx
        rcases reachAbsorb_new_on_queue _ _ _ _ hx with hold | hnew
        · rcases hinv x hold with hstk | hsub
          · rcases List.mem_cons.mp hstk with rfl | h2
            · right
              intro n hn
              exact reachAbsorb_elems_subset _ _ _ n hn
            · left; exact reachAbsorb_queue_mono _ _ _ _ h2
          · right
            exact fun n hn => reachAbsorb_reach_subset _ _ _ (hsub n hn)
        · left; exact hnew

theorem reachableStates_subset (dfa : DFAModel)
    (h1 : dfa.startState ∈ dfa.states)
    (h2 : ∀ e ∈ dfa.transitions, e.2 ∈ dfa.states ∧ e.1.2 ∈ dfa.alphabet) :
    reachableStates dfa ⊆ dfa.states := by
  apply reachLoop_minimal
  · intro s _ n hn
    rcases List.mem_filterMap.mp hn with ⟨a, _, ha⟩
    revert ha
    cases hg : jsGet dfa.transitions (s, a) with
    | none => intro ha; simp at ha
    | some v =>
      intro ha
      dsimp only at ha
      by_cases hv : v = ""
      · rw [if_pos hv] at ha; cases ha
      · rw [if_neg hv] at ha
        cases ha
        exact (h2 _ (jsGet_eq_some_mem hg)).1
  · intro x hx
    rcases Finset.mem_singleton.mp hx with rfl
    exact h1
  · intro x hx
    rcases List.mem_singleton.mp hx with rfl
    exact h1

theorem reachableStates_closed (dfa : DFAModel) :
    ∀ x ∈ reachableStates dfa,
      ∀ n ∈ reachNexts dfa.transitions (finSortedList dfa.alphabet) x,
        n ∈ reachableStates dfa := by
  apply reachLoop_closed
  · simp only [List.length_cons, List.length_nil]
    omega
  · intro x hx
    left
    rcases Finset.mem_singleton.mp hx with rfl
    exact List.mem_singleton.mpr rfl

theorem states_subset_reachable (dfa : DFAModel)
    (h2 : ∀ e ∈ dfa.transitions, e.2 ∈ dfa.states ∧ e.1.2 ∈ dfa.alphabet)
    (h3 : "" ∉ dfa.states)
    (h4 : ∀ s ∈ dfa.states, ∃ w, dfaRun dfa.transitions dfa.startState w = some s) :
    dfa.states ⊆ reachableStates dfa := by
  have hrun : ∀ (w : List String) (s0 s : String), s0 ∈ reachableStates dfa →
      dfaRun dfa.transitions s0 w = some s → s ∈ reachableStates dfa := by
    intro w
    induction w with
    | nil =>
      intro s0 s hs0 hrun
      unfold dfaRun at hrun
      cases hrun
      exact hs0
    | cons a w ih =>
      intro s0 s hs0 hrun
      unfold dfaRun at hrun
      revert hrun
      cases hg : jsGet dfa.transitions (s0, a) with
      | none => intro hrun; cases hrun
      | some t =>
        intro hrun
        have hmem := jsGet_eq_some_mem hg
        have ht : t ∈ reachNexts dfa.transitions (finSortedList dfa.alphabet) s0 := by
          apply List.mem_filterMap.mpr
          refine ⟨a, ?_, ?_⟩
          · rw [mem_finSortedList]
            exact (h2 _ hmem).2
          · rw [hg]
            dsimp only
            rw [if_neg]
            intro hcon
            subst hcon
            exact h3 (h2 _ hmem).1
        exact ih t s (reachableStates_closed dfa s0 hs0 t ht) hrun
  intro s hs
  rcases h4 s hs with ⟨w, hw⟩
  apply hrun w dfa.startState s ?_ hw
  exact reachLoop_grow _ _ _ _ _ (Finset.mem_singleton_self _)

theorem reachableStates_eq (dfa : DFAModel)
    (h1 : dfa.startState ∈ dfa.states)
    (h2 : ∀ e ∈ dfa.transitions, e.2 ∈ dfa.states ∧ e.1.2 ∈ dfa.alphabet)
    (h3 : "" ∉ dfa.states)
    (h4 : ∀ s ∈ dfa.states, ∃ w, dfaRun dfa.transitions dfa.startState w = some s) :
    reachableStates dfa = dfa.states :=
  Finset.Subset.antisymm (reachableStates_subset dfa h1 h2)
    (states_subset_reachable dfa h2 h3 h4)

theorem jsSet_keys {α β : Type} [DecidableEq α] (m : List (α × β)) (k : α) (v : β) :
    (jsSet m k v).map (·.1) = m.map (·.1) ∨
    ((jsSet m k v).map (·.1) = m.map (·.1) ++ [k] ∧ k ∉ m.map (·.1)) := by
  unfold jsSet
  split
  · left
    rw [List.map_map]
    apply List.map_congr_left
    intro p _
    by_cases hp : p.1 = k
    · simp [hp]
    · simp [hp]
  · right
    constructor
    · rw [List.map_append]
      rfl
    · intro hcon
      rcases List.mem_map.mp hcon with ⟨p, hp, hpk⟩
      rename_i hany
      exact hany (List.any_eq_true.mpr ⟨p, hp, by simp [hpk]⟩)

theorem jsSet_keys_nodup {α β : Type} [DecidableEq α] {m : List (α × β)} {k : α}
    {v : β} (h : (m.map (·.1)).Nodup) : ((jsSet m k v).map (·.1)).Nodup := by
  rcases jsSet_keys m k v with heq | ⟨heq, hnotin⟩
  · rw [heq]; exact h
  · rw [heq, List.nodup_append]
    exact ⟨h, List.nodup_singleton _, by
      intro x hx hy
      simp only [List.mem_singleton] at hy
      subst hy
      exact hnotin hx⟩

theorem jsSet_mem_self_of_present {α β : Type} [DecidableEq α] {m : List (α × β)}
    {k : α} {w : β} (v : β) (h : jsGet m k = some w) : (k, v) ∈ jsSet m k v := by
  unfold jsGet at h
  cases hf : m.find? (fun p => decide (p.1 = k)) with
  | none => rw [hf] at h; cases h
  | some p =>
    have hpm := List.mem_of_find?_eq_some hf
    have hpk : p.1 = k := by simpa using List.find?_some hf
    unfold jsSet
    rw [if_pos (List.any_eq_true.mpr ⟨p, hpm, by simp [hpk]⟩)]
    exact List.mem_map.mpr ⟨p, hpm, by simp [hpk]⟩

theorem jsSet_mem_preserved {α β : Type} [DecidableEq α] {m : List (α × β)}
    {k : α} {v : β} {e : α × β} (he : e ∈ m) (hne : e.1 ≠ k) : e ∈ jsSet m k v := by
  unfold jsSet
  split
  · apply List.mem_map.mpr
    exact ⟨e, he, by simp [hne]⟩
  · exact List.mem_append.mpr (Or.inl he)

theorem jsSet_length {α β : Type} [DecidableEq α] (m : List (α × β)) (k : α) (v : β) :
    (jsSet m k v).length = m.length ∨ (jsSet m k v).length = m.length + 1 := by
  unfold jsSet
  split
  · left; exact List.length_map _ _
  · right; rw [List.length_append]; rfl

theorem groupsFold_spec (σ : String → List Int) :
    ∀ (l : List String) (groups : List (List Int × Finset String)),
      ((groups.map (·.1)).Nodup) →
      (∀ e ∈ groups, e.2 ≠ ∅ ∧ ∀ s ∈ e.2, σ s = e.1) →
      (((l.foldl (fun gs s => addToGroups gs (σ s) s) groups).map (·.1)).Nodup ∧
       (∀ e ∈ l.foldl (fun gs s => addToGroups gs (σ s) s) groups,
         e.2 ≠ ∅ ∧ ∀ s ∈ e.2, σ s = e.1) ∧
       (∀ s, ((∃ e ∈ groups, s ∈ e.2) ∨ s ∈ l) →
         ∃ e ∈ l.foldl (fun gs s => addToGroups gs (σ s) s) groups, s ∈ e.2) ∧
       (∀ e ∈ l.foldl (fun gs s => addToGroups gs (σ s) s) groups, ∀ s ∈ e.2,
         (∃ e2 ∈ groups, s ∈ e2.2) ∨ s ∈ l) ∧
       (groups.length ≤ (l.foldl (fun gs s => addToGroups gs (σ s) s) groups).length)) := by
  intro l
  induction l with
  | nil =>
    intro groups hnd hok
    refine ⟨hnd, hok, ?_, ?_, Nat.le_refl _⟩
    · intro s hs
      rcases hs with h | h
      · exact h
      · simp at h
    · intro e he s hs
      exact Or.inl ⟨e, he, hs⟩
  | cons s0 rest ih =>
    intro groups hnd hok
    rw [List.foldl_cons]
    have hstep : ((addToGroups groups (σ s0) s0).map (·.1)).Nodup ∧
        (∀ e ∈ addToGroups groups (σ s0) s0, e.2 ≠ ∅ ∧ ∀ s ∈ e.2, σ s = e.1) ∧
        (∃ e ∈ addToGroups groups (σ s0) s0, s0 ∈ e.2) ∧
        (∀ e2 ∈ groups, ∀ s ∈ e2.2, ∃ e ∈ addToGroups groups (σ s0) s0, s ∈ e.2) ∧
        (∀ e ∈ addToGroups groups (σ s0) s0, ∀ s ∈ e.2,
          (∃ e2 ∈ groups, s ∈ e2.2) ∨ s = s0) ∧
        groups.length ≤ (addToGroups groups (σ s0) s0).length := by
      unfold addToGroups
      cases hg : jsGet groups (σ s0) with
      | some g =>
        have hgm := jsGet_eq_some_mem hg
        refine ⟨jsSet_keys_nodup hnd, ?_, ?_, ?_, ?_, ?_⟩
        · intro e he
          rcases mem_jsSet he with rfl | hm
          · refine ⟨fun hcon => ?_, ?_⟩
            · rw [Finset.eq_empty_iff_forall_not_mem] at hcon
              exact hcon s0 (Finset.mem_insert_self _ _)
            · intro s hs
              rcases Finset.mem_insert.mp hs with rfl | hs2
              · rfl
              · exact (hok _ hgm).2 s hs2
          · exact hok e hm
        · exact ⟨(σ s0, insert s0 g), jsSet_mem_self_of_present _ hg,
            Finset.mem_insert_self _ _⟩
        · intro e2 he2 s hs
          by_cases hk : e2.1 = σ s0
          · have he2g : e2 = (σ s0, g) := by
              have : (σ s0, e2.2) ∈ groups := by
                rw [← hk]
                exact he2
              have := nodupKeys_value_unique hnd this hgm
              cases e2
              simp_all
            refine ⟨(σ s0, insert s0 g), jsSet_mem_self_of_present _ hg, ?_⟩
            apply Finset.mem_insert_of_mem
            rw [he2g] at hs
            exact hs
          · exact ⟨e2, jsSet_mem_preserved he2 hk, hs⟩
        · intro e he s hs
          rcases mem_jsSet he with rfl | hm
          · rcases Finset.mem_insert.mp hs with rfl | hs2
            · exact Or.inr rfl
            · exact Or.inl ⟨(σ s0, g), hgm, hs2⟩
          · exact Or.inl ⟨e, hm, hs⟩
        · dsimp only
          rcases jsSet_length groups (σ s0) (insert s0 g) with h | h <;> omega
      | none =>
        refine ⟨?_, ?_, ?_, ?_, ?_, ?_⟩
        · rw [List.map_append, List.nodup_append]
          exact ⟨hnd, List.nodup_singleton _, by
            intro x hx hy
            simp only [List.map_cons, List.map_nil, List.mem_singleton] at hy
            subst hy
            exact key_notin_of_jsGet_none hg hx⟩
        · intro e he
          rcases List.mem_append.mp he with hm | hm
          · exact hok e hm
          · simp only [List.mem_singleton] at hm
            subst hm
            exact ⟨fun hcon => (by simp at hcon), by
              intro s hs
              rcases Finset.mem_singleton.mp hs with rfl
              rfl⟩
        · exact ⟨(σ s0, {s0}), List.mem_append.mpr (Or.inr (List.mem_singleton.mpr rfl)),
            Finset.mem_singleton_self _⟩
        · intro e2 he2 s hs
          exact ⟨e2, List.mem_append.mpr (Or.inl he2), hs⟩
        · intro e he s hs
          rcases List.mem_append.mp he with hm | hm
          · exact Or.inl ⟨e, hm, hs⟩
          · simp only [List.mem_singleton] at hm
            subst hm
            rcases Finset.mem_singleton.mp hs with rfl
            exact Or.inr rfl
        · rw [List.length_append]
          omega
    obtain ⟨s1, s2, s3, s4, s5, s6⟩ := hstep
    have hrest := ih (addToGroups groups (σ s0) s0) s1 s2
    obtain ⟨c1, c2, c3, c4, c5⟩ := hrest
    refine ⟨c1, c2, ?_, ?_, ?_⟩
    · intro s hs
      rcases hs with ⟨e, he, hse⟩ | hsl
      · exact c3 s (Or.inl (s4 e he s hse))
      · rcases List.mem_cons.mp hsl with rfl | h2
        · exact c3 s (Or.inl s3)
        · exact c3 s (Or.inr h2)
    · intro e he s hs
      rcases c4 e he s hs with ⟨e2, he2, hse2⟩ | hsl
      · rcases s5 e2 he2 s hse2 with h | rfl
        · exact Or.inl h
        · exact Or.inr (List.mem_cons_self _ _)
      · exact Or.inr (List.mem_cons_of_mem _ hsl)
    · omega

theorem mem_listUnion {l : List (Finset String)} {x : String} :
    x ∈ listUnion l ↔ ∃ p ∈ l, x ∈ p := by
  induction l with
  | nil => simp [listUnion]
  | cons p rest ih =>
    unfold listUnion at ih ⊢
    rw [List.foldr_cons, Finset.mem_union, ih]
    simp

theorem subset_listUnion {l : List (Finset String)} {p : Finset String} (h : p ∈ l) :
    p ⊆ listUnion l :=
  fun _ hx => mem_listUnion.mpr ⟨p, h, hx⟩

theorem disjoint_listUnion {l : List (Finset String)} {p : Finset String}
    (h : ∀ q ∈ l, Disjoint p q) : Disjoint p (listUnion l) := by
  induction l with
  | nil => simp [listUnion]
  | cons q rest ih =>
    unfold listUnion at ih ⊢
    rw [List.foldr_cons, Finset.disjoint_union_right]
    exact ⟨h q (List.mem_cons_self _ _), ih (fun r hr => h r (List.mem_cons_of_mem _ hr))⟩

theorem listUnion_card {l : List (Finset String)}
    (h : List.Pairwise (fun p q => Disjoint p q) l) :
    (listUnion l).card = (l.map Finset.card).sum := by
  induction l with
  | nil => simp [listUnion]
  | cons p rest ih =>
    rw [List.pairwise_cons] at h
    have hu : listUnion (p :: rest) = p ∪ listUnion rest := rfl
    rw [hu, Finset.card_union_of_disjoint (disjoint_listUnion h.1),
      List.map_cons, List.sum_cons, ih h.2]

theorem partition_length_le {R : Finset String} :
    ∀ {parts : List (Finset String)},
      (∀ p ∈ parts, p ≠ ∅) → List.Pairwise (fun p q => Disjoint p q) parts →
      listUnion parts = R → parts.length ≤ R.card := by
  intro parts
  induction parts generalizing R with
  | nil => intro _ _ _; simp
  | cons p rest ih =>
    intro hne hpw hun
    rw [List.pairwise_cons] at hpw
    have hrest := ih (R := listUnion rest) (fun q hq => hne q (List.mem_cons_of_mem _ hq))
      hpw.2 rfl
    have hcard : R.card = p.card + (listUnion rest).card := by
      rw [← hun]
      unfold listUnion
      rw [List.foldr_cons]
      exact Finset.card_union_of_disjoint (disjoint_listUnion hpw.1)
    have hp1 : 1 ≤ p.card := by
      rcases Finset.nonempty_iff_ne_empty.mpr (hne p (List.mem_cons_self _ _)) with ⟨a, ha⟩
      exact Finset.card_pos.mpr ⟨a, ha⟩
    rw [List.length_cons]
    omega

theorem groupsOf_spec (T : List ((String × String) × String)) (A : List String)
    (parts : List (Finset String)) (part : Finset String) :
    (((groupsOf T A parts part).map (·.1)).Nodup) ∧
    (∀ e ∈ groupsOf T A parts part, e.2 ≠ ∅ ∧
      ∀ s ∈ e.2, dfaSignature T A parts s = e.1) ∧
    (∀ s ∈ part, ∃ e ∈ groupsOf T A parts part, s ∈ e.2) ∧
    (∀ e ∈ groupsOf T A parts part, ∀ s ∈ e.2, s ∈ part) := by
  have h := groupsFold_spec (dfaSignature T A parts) (finSortedList part) []
    (by simp) (by intro e he; simp at he)
  obtain ⟨c1, c2, c3, c4, _⟩ := h
  refine ⟨c1, c2, ?_, ?_⟩
  · intro s hs
    exact c3 s (Or.inr ((mem_finSortedList _ _).mpr hs))
  · intro e he s hs
    rcases c4 e he s hs with ⟨e2, he2, _⟩ | h2
    · simp at he2
    · exact (mem_finSortedList _ _).mp h2

theorem groupsOf_length_pos (T : List ((String × String) × String)) (A : List String)
    (parts : List (Finset String)) {part : Finset String} (h : part ≠ ∅) :
    1 ≤ (groupsOf T A parts part).length := by
  rcases Finset.nonempty_iff_ne_empty.mpr h with ⟨s, hs⟩
  rcases (groupsOf_spec T A parts part).2.2.1 s hs with ⟨e, he, _⟩
  have hne : groupsOf T A parts part ≠ [] := by
    intro hcon
    rw [hcon] at he
    simp at he
  exact List.length_pos.mpr hne

theorem groups_sets_pairwise_disjoint (T : List ((String × String) × String))
    (A : List String) (parts : List (Finset String)) (part : Finset String) :
    List.Pairwise (fun p q => Disjoint p q) ((groupsOf T A parts part).map (·.2)) := by
  have hspec := groupsOf_spec T A parts part
  have H : ∀ (gs : List (List Int × Finset String)),
      (gs.map (·.1)).Nodup →
      (∀ e ∈ gs, ∀ s ∈ e.2, dfaSignature T A parts s = e.1) →
      List.Pairwise (fun p q => Disjoint p q) (gs.map (·.2)) := by
    intro gs
    induction gs with
    | nil => intro _ _; simp
    | cons e rest ih =>
      intro hnd hok
      rw [List.map_cons, List.pairwise_cons]
      rw [List.map_cons, List.nodup_cons] at hnd
      constructor
      · intro q hq
        rcases List.mem_map.mp hq with ⟨e2, he2, rfl⟩
        rw [Finset.disjoint_left]
        intro s hs1 hs2
        have h1 := hok e (List.mem_cons_self _ _) s hs1
        have h2 := hok e2 (List.mem_cons_of_mem _ he2) s hs2
        exact hnd.1 (h1 ▸ h2 ▸ List.mem_map.mpr ⟨e2, he2, rfl⟩)
      · exact ih hnd.2 (fun e2 he2 => hok e2 (List.mem_cons_of_mem _ he2))
  exact H _ hspec.1 (fun e he => (hspec.2.1 e he).2)

theorem refinePass_blocks (T : List ((String × String) × String)) (A : List String)
    (parts : List (Finset String)) :
    ∀ p ∈ refinePass T A parts, (∃ part ∈ parts, p ⊆ part) ∧ p ≠ ∅ := by
  intro p hp
  rcases List.mem_flatMap.mp hp with ⟨part, hpart, hmem⟩
  rcases List.mem_map.mp hmem with ⟨e, he, rfl⟩
  have hspec := groupsOf_spec T A parts part
  exact ⟨⟨part, hpart, fun s hs => hspec.2.2.2 e he s hs⟩, (hspec.2.1 e he).1⟩

theorem refinePass_union (T : List ((String × String) × String)) (A : List String)
    (parts : List (Finset String)) :
    listUnion (refinePass T A parts) = listUnion parts := by
  ext x
  rw [mem_listUnion, mem_listUnion]
  constructor
  · rintro ⟨p, hp, hx⟩
    rcases (refinePass_blocks T A parts p hp).1 with ⟨part, hpart, hsub⟩
    exact ⟨part, hpart, hsub hx⟩
  · rintro ⟨part, hpart, hx⟩
    rcases (groupsOf_spec T A parts part).2.2.1 x hx with ⟨e, he, hxe⟩
    exact ⟨e.2, List.mem_flatMap.mpr ⟨part, hpart, List.mem_map.mpr ⟨e, he, rfl⟩⟩, hxe⟩

theorem refinePass_pairwise (T : List ((String × String) × String)) (A : List String)
    (parts : List (Finset String))
    (hpw : List.Pairwise (fun p q => Disjoint p q) parts) :
    List.Pairwise (fun p q => Disjoint p q) (refinePass T A parts) := by
  unfold refinePass
  have H : ∀ (l : List (Finset String)), List.Pairwise (fun p q => Disjoint p q) l →
      (∀ p ∈ l, p ∈ parts) →
      List.Pairwise (fun p q => Disjoint p q)
        (l.flatMap (fun part => (groupsOf T A parts part).map (·.2))) := by
    intro l
    induction l with
    | nil => intro _ _; simp
    | cons part rest ih =>
      intro hl hmem
      rw [List.pairwise_cons] at hl
      rw [List.flatMap_cons, List.pairwise_append]
      refine ⟨groups_sets_pairwise_disjoint T A parts part,
        ih hl.2 (fun p hp => hmem p (List.mem_cons_of_mem _ hp)), ?_⟩
      intro x hx y hy
      rcases List.mem_map.mp hx with ⟨e, he, rfl⟩
      rcases List.mem_flatMap.mp hy with ⟨part2, hpart2, hy2⟩
      rcases List.mem_map.mp hy2 with ⟨e2, he2, rfl⟩
      have hd : Disjoint part part2 := hl.1 part2 hpart2
      apply Finset.disjoint_of_subset_left (fun s hs => (groupsOf_spec T A parts part).2.2.2 e he s hs)
      apply Finset.disjoint_of_subset_right
        (fun s hs => (groupsOf_spec T A parts part2).2.2.2 e2 he2 s hs)
      exact hd
  exact H parts hpw (fun p hp => hp)

theorem refinePass_id (T : List ((String × String) × String)) (A : List String)
    (parts : List (Finset String)) (hch : refineChanged T A parts = false)
    (hne : ∀ p ∈ parts, p ≠ ∅) : refinePass T A parts = parts := by
  unfold refinePass
  have hch2 : ∀ part ∈ parts, ¬ 1 < (groupsOf T A parts part).length := by
    intro part hpart hcon
    rw [refineChanged, List.any_eq_false] at hch
    have := hch part hpart
    simp only [decide_eq_true_eq] at this
    exact this hcon
  have H : ∀ (l : List (Finset String)), (∀ p ∈ l, p ∈ parts) → (∀ p ∈ l, p ≠ ∅) →
      l.flatMap (fun part => (groupsOf T A parts part).map (·.2)) = l := by
    intro l
    induction l with
    | nil => intro _ _; rfl
    | cons part rest ih =>
      intro hmem hne2
      rw [List.flatMap_cons, ih (fun p hp => hmem p (List.mem_cons_of_mem _ hp))
        (fun p hp => hne2 p (List.mem_cons_of_mem _ hp))]
      have hlen1 : (groupsOf T A parts part).length = 1 := by
        have h1 := groupsOf_length_pos T A parts (hne2 part (List.mem_cons_self _ _))
        have h2 := hch2 part (hmem part (List.mem_cons_self _ _))
        omega
      rcases List.length_eq_one.mp hlen1 with ⟨e, hegroups⟩
      have hspec := groupsOf_spec T A parts part
      have hepart : e.2 = part := by
        apply Finset.Subset.antisymm
        · intro s hs
          apply hspec.2.2.2 e _ s hs
          rw [hegroups]
          exact List.mem_singleton.mpr rfl
        · intro s hs
          rcases hspec.2.2.1 s hs with ⟨e2, he2, hse2⟩
          rw [hegroups, List.mem_singleton] at he2
          subst he2
          exact hse2
      rw [hegroups]
      simp [hepart]
  exact H parts (fun p hp => hp) hne

theorem refinePass_length_le (T : List ((String × String) × String)) (A : List String)
    (parts : List (Finset String)) (hne : ∀ p ∈ parts, p ≠ ∅) :
    parts.length ≤ (refinePass T A parts).length := by
  unfold refinePass
  have H : ∀ (l : List (Finset String)), (∀ p ∈ l, p ≠ ∅) →
      l.length ≤ (l.flatMap (fun part => (groupsOf T A parts part).map (·.2))).length := by
    intro l
    induction l with
    | nil => intro _; simp
    | cons part rest ih =>
      intro hne2
      rw [List.flatMap_cons, List.length_append, List.length_cons, List.length_map]
      have h1 := groupsOf_length_pos T A parts (hne2 part (List.mem_cons_self _ _))
      have h2 := ih (fun p hp => hne2 p (List.mem_cons_of_mem _ hp))
      omega
  exact H parts hne

theorem refinePass_length_lt (T : List ((String × String) × String)) (A : List String)
    (parts : List (Finset String)) (hch : refineChanged T A parts = true)
    (hne : ∀ p ∈ parts, p ≠ ∅) :
    parts.length < (refinePass T A parts).length := by
  unfold refinePass
  rw [refineChanged, List.any_eq_true] at hch
  have H : ∀ (l : List (Finset String)), (∀ p ∈ l, p ≠ ∅) →
      (∃ part ∈ l, 1 < (groupsOf T A parts part).length) →
      l.length < (l.flatMap (fun part => (groupsOf T A parts part).map (·.2))).length := by
    intro l
    induction l with
    | nil => intro _ h; simp at h
    | cons part rest ih =>
      intro hne2 hex
      rw [List.flatMap_cons, List.length_append, List.length_cons, List.length_map]
      rcases hex with ⟨part2, hpart2, hlt⟩
      rcases List.mem_cons.mp hpart2 with rfl | hmem
      · have h2 : rest.length ≤
            (rest.flatMap (fun part => (groupsOf T A parts part).map (·.2))).length := by
          have H2 : ∀ (l2 : List (Finset String)), (∀ p ∈ l2, p ≠ ∅) →
              l2.length ≤ (l2.flatMap (fun part => (groupsOf T A parts part).map (·.2))).length := by
            intro l2
            induction l2 with
            | nil => intro _; simp
            | cons q qs ihq =>
              intro hq
              rw [List.flatMap_cons, List.length_append, List.length_cons, List.length_map]
              have := groupsOf_length_pos T A parts (hq q (List.mem_cons_self _ _))
              have := ihq (fun p hp => hq p (List.mem_cons_of_mem _ hp))
              omega
          exact H2 rest (fun p hp => hne2 p (List.mem_cons_of_mem _ hp))
        omega
      · have h1 := groupsOf_length_pos T A parts (hne2 part (List.mem_cons_self _ _))
        have h2 := ih (fun p hp => hne2 p (List.mem_cons_of_mem _ hp)) ⟨part2, hmem, hlt⟩
        omega
  apply H parts hne
  rcases hch with ⟨part, hpart, hdec⟩
  simp only [decide_eq_true_eq] at hdec
  exact ⟨part, hpart, hdec⟩

theorem refineLoop_spec (T : List ((String × String) × String)) (A : List String)
    (U : Finset String) :
    ∀ (fuel : Nat) (parts : List (Finset String)),
      listUnion parts = U →
      List.Pairwise (fun p q => Disjoint p q) parts →
      (∀ p ∈ parts, p ≠ ∅) →
      U.card < parts.length + fuel →
      listUnion (refineLoop T A fuel parts) = U ∧
      List.Pairwise (fun p q => Disjoint p q) (refineLoop T A fuel parts) ∧
      (∀ p ∈ refineLoop T A fuel parts, p ≠ ∅) ∧
      (∀ p ∈ refineLoop T A fuel parts, ∃ q ∈ parts, p ⊆ q) ∧
      refineChanged T A (refineLoop T A fuel parts) = false := by
  intro fuel
  induction fuel with
  | zero =>
    intro parts hU hpw hne hfuel
    exact absurd (partition_length_le hne hpw hU) (by omega)
  | succ fuel ih =>
    intro parts hU hpw hne hfuel
    have hblocks := refinePass_blocks T A parts
    have hnp_ne : ∀ p ∈ refinePass T A parts, p ≠ ∅ := fun p hp => (hblocks p hp).2
    have hnp_U : listUnion (refinePass T A parts) = U := by
      rw [refinePass_union, hU]
    have hnp_pw := refinePass_pairwise T A parts hpw
    by_cases hch : refineChanged T A parts = true
    · have hlt := refinePass_length_lt T A parts hch hne
      rw [show refineLoop T A (fuel + 1) parts = refineLoop T A fuel (refinePass T A parts) by
        rw [refineLoop]; rw [if_pos hch]]
      have := ih (refinePass T A parts) hnp_U hnp_pw hnp_ne (by omega)
      refine ⟨this.1, this.2.1, this.2.2.1, ?_, this.2.2.2.2⟩
      intro p hp
      rcases this.2.2.2.1 p hp with ⟨q, hq, hpq⟩
      rcases (hblocks q hq).1 with ⟨r, hr, hqr⟩
      exact ⟨r, hr, fun x hx => hqr (hpq hx)⟩
    · rw [Bool.not_eq_true] at hch
      rw [show refineLoop T A (fuel + 1) parts = refinePass T A parts by
        rw [refineLoop]; rw [if_neg (by rw [hch]; exact Bool.false_ne_true)]]
      rw [refinePass_id T A parts hch hne]
      exact ⟨hU, hpw, hne, fun p hp => ⟨p, hp, fun x hx => hx⟩, hch⟩

theorem stable_same_sig (T : List ((String × String) × String)) (A : List String)
    (parts : List (Finset String)) (hch : refineChanged T A parts = false)
    {part : Finset String} (hpart : part ∈ parts) {s₁ s₂ : String}
    (h₁ : s₁ ∈ part) (h₂ : s₂ ∈ part) :
    dfaSignature T A parts s₁ = dfaSignature T A parts s₂ := by
  have hspec := groupsOf_spec T A parts part
  rcases hspec.2.2.1 s₁ h₁ with ⟨e₁, he₁, hs₁⟩
  rcases hspec.2.2.1 s₂ h₂ with ⟨e₂, he₂, hs₂⟩
  have hlen1 : (groupsOf T A parts part).length = 1 := by
    rw [refineChanged, List.any_eq_false] at hch
    have hc := hch part hpart
    simp only [decide_eq_true_eq] at hc
    have hp := groupsOf_length_pos T A parts (Finset.ne_empty_of_mem h₁)
    omega
  rcases List.length_eq_one.mp hlen1 with ⟨e, hegroups⟩
  rw [hegroups, List.mem_singleton] at he₁ he₂
  subst he₁; subst he₂
  rw [(hspec.2.1 e₂ (by rw [hegroups]; exact List.mem_singleton.mpr rfl)).2 s₁ hs₁,
    (hspec.2.1 e₂ (by rw [hegroups]; exact List.mem_singleton.mpr rfl)).2 s₂ hs₂]

theorem sig_equiv_words
    (T : List ((String × String) × String)) (A : List String) (acc : Finset String)
    (parts : List (Finset String))
    (haccinv : ∀ p ∈ parts, ∀ s₁ ∈ p, ∀ s₂ ∈ p, (s₁ ∈ acc ↔ s₂ ∈ acc))
    (hsig : ∀ p ∈ parts, ∀ s₁ ∈ p, ∀ s₂ ∈ p,
      dfaSignature T A parts s₁ = dfaSignature T A parts s₂)
    (hclosed : ∀ s ∈ listUnion parts, ∀ a t, jsGet T (s, a) = some t → t ∈ listUnion parts)
    (hA : ∀ s a t, jsGet T (s, a) = some t → a ∈ A) :
    ∀ (w : List String) (p : Finset String), p ∈ parts → ∀ s₁ ∈ p, ∀ s₂ ∈ p,
      dfaAcceptsFrom T acc s₁ w = dfaAcceptsFrom T acc s₂ w := by
  intro w
  induction w with
  | nil =>
    intro p hp s₁ h₁ s₂ h₂
    simp only [dfaAcceptsFrom]
    exact decide_eq_decide.mpr (haccinv p hp s₁ h₁ s₂ h₂)
  | cons a w ih =>
    intro p hp s₁ h₁ s₂ h₂
    have hs := hsig p hp s₁ h₁ s₂ h₂
    unfold dfaSignature at hs
    cases hg₁ : jsGet T (s₁, a) with
    | none =>
      cases hg₂ : jsGet T (s₂, a) with
      | none => simp only [dfaAcceptsFrom, hg₁, hg₂]
      | some t₂ =>
        exfalso
        have ha : a ∈ A := hA s₂ a t₂ hg₂
        have hsigeq := List.map_inj_left.mp hs a ha
        rw [hg₁, hg₂] at hsigeq
        have ht₂ : t₂ ∈ listUnion parts :=
          hclosed s₂ (mem_listUnion.mpr ⟨p, hp, h₂⟩) a t₂ hg₂
        rcases mem_listUnion.mp ht₂ with ⟨q, hq, htq⟩
        have hidx : parts.findIdx (fun r => decide (t₂ ∈ r)) < parts.length :=
          List.findIdx_lt_length_of_exists ⟨q, hq, by simpa using htq⟩
        simp only [jsFindIndexPart] at hsigeq
        rw [if_neg (by omega)] at hsigeq
        omega
    | some t₁ =>
      cases hg₂ : jsGet T (s₂, a) with
      | none =>
        exfalso
        have ha : a ∈ A := hA s₁ a t₁ hg₁
        have hsigeq := List.map_inj_left.mp hs a ha
        rw [hg₁, hg₂] at hsigeq
        have ht₁ : t₁ ∈ listUnion parts :=
          hclosed s₁ (mem_listUnion.mpr ⟨p, hp, h₁⟩) a t₁ hg₁
        rcases mem_listUnion.mp ht₁ with ⟨q, hq, htq⟩
        have hidx : parts.findIdx (fun r => decide (t₁ ∈ r)) < parts.length :=
          List.findIdx_lt_length_of_exists ⟨q, hq, by simpa using htq⟩
        simp only [jsFindIndexPart] at hsigeq
        rw [if_neg (by omega)] at hsigeq
        omega
      | some t₂ =>
        have ha : a ∈ A := hA s₁ a t₁ hg₁
        have hsigeq := List.map_inj_left.mp hs a ha
        rw [hg₁, hg₂] at hsigeq
        have ht₁ : t₁ ∈ listUnion parts :=
          hclosed s₁ (mem_listUnion.mpr ⟨p, hp, h₁⟩) a t₁ hg₁
        have ht₂ : t₂ ∈ listUnion parts :=
          hclosed s₂ (mem_listUnion.mpr ⟨p, hp, h₂⟩) a t₂ hg₂
        rcases mem_listUnion.mp ht₁ with ⟨q₁, hq₁, htq₁⟩
        rcases mem_listUnion.mp ht₂ with ⟨q₂, hq₂, htq₂⟩
        have hidx₁ : parts.findIdx (fun r => decide (t₁ ∈ r)) < parts.length :=
          List.findIdx_lt_length_of_exists ⟨q₁, hq₁, by simpa using htq₁⟩
        have hidx₂ : parts.findIdx (fun r => decide (t₂ ∈ r)) < parts.length :=
          List.findIdx_lt_length_of_exists ⟨q₂, hq₂, by simpa using htq₂⟩
        simp only [jsFindIndexPart] at hsigeq
        rw [if_neg (by omega), if_neg (by omega)] at hsigeq
        have hieq : parts.findIdx (fun r => decide (t₁ ∈ r)) =
            parts.findIdx (fun r => decide (t₂ ∈ r)) := by omega
        have hmem₁ : t₁ ∈ parts.get ⟨parts.findIdx (fun r => decide (t₁ ∈ r)), hidx₁⟩ := by
          have := List.findIdx_getElem (p := fun r => decide (t₁ ∈ r)) (w := hidx₁)
          simpa using this
        have hmem₂ : t₂ ∈ parts.get ⟨parts.findIdx (fun r => decide (t₁ ∈ r)), hidx₁⟩ := by
          have hx := List.findIdx_getElem (p := fun r => decide (t₂ ∈ r)) (w := hidx₂)
          simp only [List.get_eq_getElem, hieq]
          simpa using hx
        simp only [dfaAcceptsFrom, hg₁, hg₂]
        exact ih (parts.get ⟨parts.findIdx (fun r => decide (t₁ ∈ r)), hidx₁⟩)
          (List.get_mem parts _ _) t₁ hmem₁ t₂ hmem₂

theorem jsGet_mem {α β : Type} [DecidableEq α] {m : List (α × β)} {k : α} {v : β}
    (h : jsGet m k = some v) : (k, v) ∈ m := by
  unfold jsGet at h
  cases hf : m.find? (fun p => decide (p.1 = k)) with
  | none => rw [hf] at h; exact absurd h (by simp [Option.map_none])
  | some q =>
    rw [hf] at h
    have h : q.2 = v := Option.some.inj h
    have hq := List.mem_of_find?_eq_some hf
    have hqk : q.1 = k := by
      have := List.find?_some hf
      simpa using this
    have : q = (k, v) := by
      cases q
      simp only [Prod.mk.injEq]
      exact ⟨hqk, h⟩
    exact this ▸ hq

theorem partName_singleton (a : String) : partName {a} = a := by
  unfold partName finSortedList
  rw [show ({a} : Finset String).val = a ::ₘ 0 from rfl]
  rw [Multiset.foldr_cons, Multiset.foldr_zero]
  rfl

theorem minimizeParts_spec (dfa : DFAModel)
    (h1 : dfa.startState ∈ dfa.states)
    (h2 : ∀ e ∈ dfa.transitions, e.2 ∈ dfa.states ∧ e.1.2 ∈ dfa.alphabet)
    (h3 : "" ∉ dfa.states)
    (h4 : ∀ s ∈ dfa.states, ∃ w, dfaRun dfa.transitions dfa.startState w = some s) :
    listUnion (minimizeParts dfa) = dfa.states ∧
    List.Pairwise (fun p q => Disjoint p q) (minimizeParts dfa) ∧
    (∀ p ∈ minimizeParts dfa, p ≠ ∅) ∧
    (∀ p ∈ minimizeParts dfa, ∀ s₁ ∈ p, ∀ s₂ ∈ p,
      (s₁ ∈ dfa.acceptStates ↔ s₂ ∈ dfa.acceptStates)) ∧
    refineChanged dfa.transitions (finSortedList dfa.alphabet) (minimizeParts dfa) = false := by
  have hreq : reachableStates dfa = dfa.states := reachableStates_eq dfa h1 h2 h3 h4
  set reach := reachableStates dfa with hreach
  set acc0 := reach.filter (fun s => s ∈ dfa.acceptStates) with hacc0
  set nonAcc := reach.filter (fun s => s ∉ dfa.acceptStates) with hnonAcc
  set init := (if acc0 ≠ ∅ then [acc0] else []) ++ (if nonAcc ≠ ∅ then [nonAcc] else [])
    with hinit
  have hmp : minimizeParts dfa =
      refineLoop dfa.transitions (finSortedList dfa.alphabet) (reach.card + 1) init := rfl
  have hABunion : acc0 ∪ nonAcc = reach := by
    rw [hacc0, hnonAcc]
    exact Finset.filter_union_filter_neg_eq _ reach
  have hABdisj : Disjoint acc0 nonAcc := by
    rw [hacc0, hnonAcc]
    exact Finset.disjoint_filter_filter_neg reach reach _
  have hU : listUnion init = reach := by
    rw [hinit]
    by_cases ha : acc0 ≠ ∅ <;> by_cases hb : nonAcc ≠ ∅
    · rw [if_pos ha, if_pos hb]
      show acc0 ∪ (nonAcc ∪ ∅) = reach
      rw [Finset.union_empty]; exact hABunion
    · rw [if_pos ha, if_neg hb]
      rw [not_not] at hb
      show acc0 ∪ ∅ = reach
      rw [Finset.union_empty]
      rw [← hABunion, hb, Finset.union_empty]
    · rw [if_neg ha, if_pos hb]
      rw [not_not] at ha
      show nonAcc ∪ ∅ = reach
      rw [Finset.union_empty]
      rw [← hABunion, ha, Finset.empty_union]
    · rw [if_neg ha, if_neg hb]
      rw [not_not] at ha hb
      show (∅ : Finset String) = reach
      rw [← hABunion, ha, hb, Finset.union_empty]
  have hpw : List.Pairwise (fun p q => Disjoint p q) init := by
    rw [hinit]
    by_cases ha : acc0 ≠ ∅ <;> by_cases hb : nonAcc ≠ ∅
    · rw [if_pos ha, if_pos hb]
      exact List.pairwise_cons.mpr
        ⟨fun q hq => (List.mem_singleton.mp hq) ▸ hABdisj, List.pairwise_singleton _ _⟩
    · rw [if_pos ha, if_neg hb]; exact List.pairwise_singleton _ _
    · rw [if_neg ha, if_pos hb]; exact List.pairwise_singleton _ _
    · rw [if_neg ha, if_neg hb]; exact List.Pairwise.nil
  have hne : ∀ p ∈ init, p ≠ ∅ := by
    rw [hinit]
    intro p hp
    rcases List.mem_append.mp hp with h | h
    · split at h
      · rename_i hcond
        rw [List.mem_singleton.mp h]; exact hcond
      · exact absurd h (List.not_mem_nil _)
    · split at h
      · rename_i hcond
        rw [List.mem_singleton.mp h]; exact hcond
      · exact absurd h (List.not_mem_nil _)
  have hinitacc : ∀ q ∈ init, ∀ s₁ ∈ q, ∀ s₂ ∈ q,
      (s₁ ∈ dfa.acceptStates ↔ s₂ ∈ dfa.acceptStates) := by
    rw [hinit]
    intro q hq s₁ hs₁ s₂ hs₂
    rcases List.mem_append.mp hq with h | h
    · split at h
      · rw [List.mem_singleton.mp h, hacc0] at hs₁ hs₂
        rw [Finset.mem_filter] at hs₁ hs₂
        exact iff_of_true hs₁.2 hs₂.2
      · exact absurd h (List.not_mem_nil _)
    · split at h
      · rw [List.mem_singleton.mp h, hnonAcc] at hs₁ hs₂
        rw [Finset.mem_filter] at hs₁ hs₂
        exact iff_of_false hs₁.2 hs₂.2
      · exact absurd h (List.not_mem_nil _)
  have hspec := refineLoop_spec dfa.transitions (finSortedList dfa.alphabet) reach
    (reach.card + 1) init hU hpw hne (by omega)
  rw [← hmp] at hspec
  refine ⟨hreq ▸ hspec.1, hspec.2.1, hspec.2.2.1, ?_, hspec.2.2.2.2⟩
  intro p hp s₁ hs₁ s₂ hs₂
  rcases hspec.2.2.2.1 p hp with ⟨q, hq, hpq⟩
  exact hinitacc q hq s₁ (hpq hs₁) s₂ (hpq hs₂)

/-- C8: minimizing an already-minimal DFA — every state reachable from the
start state (h4), no two distinct states accepting exactly the same words
(h5), with well-formed transitions (h2), start in the state set (h1) and no
empty-string state (h3) — yields a state set of the same cardinality. -/
theorem minimizeDFA_preserves_minimal_count (dfa : DFAModel)
    (h1 : dfa.startState ∈ dfa.states)
    (h2 : ∀ e ∈ dfa.transitions, e.2 ∈ dfa.states ∧ e.1.2 ∈ dfa.alphabet)
    (h3 : "" ∉ dfa.states)
    (h4 : ∀ s ∈ dfa.states, ∃ w, dfaRun dfa.transitions dfa.startState w = some s)
    (h5 : ∀ s₁ ∈ dfa.states, ∀ s₂ ∈ dfa.states,
      (∀ w, dfaAcceptsFrom dfa.transitions dfa.acceptStates s₁ w =
        dfaAcceptsFrom dfa.transitions dfa.acceptStates s₂ w) → s₁ = s₂) :
    (minimizeDFA dfa).states.card = dfa.states.card := by
  obtain ⟨hU, hpw, hne, haccinv, hch⟩ := minimizeParts_spec dfa h1 h2 h3 h4
  have hclosed : ∀ s ∈ listUnion (minimizeParts dfa), ∀ a t,
      jsGet dfa.transitions (s, a) = some t → t ∈ listUnion (minimizeParts dfa) := by
    intro s _ a t hg
    rw [hU]
    exact (h2 ((s, a), t) (jsGet_mem hg)).1
  have hA : ∀ s a t, jsGet dfa.transitions (s, a) = some t →
      a ∈ finSortedList dfa.alphabet := by
    intro s a t hg
    rw [mem_finSortedList]
    exact (h2 ((s, a), t) (jsGet_mem hg)).2
  have hsig : ∀ p ∈ minimizeParts dfa, ∀ s₁ ∈ p, ∀ s₂ ∈ p,
      dfaSignature dfa.transitions (finSortedList dfa.alphabet) (minimizeParts dfa) s₁ =
      dfaSignature dfa.transitions (finSortedList dfa.alphabet) (minimizeParts dfa) s₂ :=
    fun _ hp _ hs₁ _ hs₂ =>
      stable_same_sig dfa.transitions (finSortedList dfa.alphabet) (minimizeParts dfa)
        hch hp hs₁ hs₂
  have hwords := sig_equiv_words dfa.transitions (finSortedList dfa.alphabet)
    dfa.acceptStates (minimizeParts dfa) haccinv hsig hclosed hA
  have hsing : ∀ p ∈ minimizeParts dfa, ∃ a, p = {a} := by
    intro p hp
    have hcard : p.card ≤ 1 := by
      apply Finset.card_le_one.mpr
      intro a ha b hb
      have haS : a ∈ dfa.states := hU ▸ subset_listUnion hp ha
      have hbS : b ∈ dfa.states := hU ▸ subset_listUnion hp hb
      exact h5 a haS b hbS (fun w => hwords w p hp a ha b hb)
    have hpos : 0 < p.card := Finset.card_pos.mpr (Finset.nonempty_iff_ne_empty.mpr (hne p hp))
    exact Finset.card_eq_one.mp (by omega)
  have hstep : List.Pairwise (fun p q => partName p ≠ partName q) (minimizeParts dfa) := by
    refine List.Pairwise.imp_of_mem ?_ hpw
    intro p q hp hq hd
    rcases hsing p hp with ⟨a, rfl⟩
    rcases hsing q hq with ⟨b, rfl⟩
    rw [partName_singleton, partName_singleton]
    intro hab
    subst hab
    exact Finset.singleton_ne_empty a (disjoint_self.mp hd)
  have hnames : ((minimizeParts dfa).map partName).Nodup := by
    show List.Pairwise _ _
    exact List.pairwise_map.mpr hstep
  have hsum : ∀ l : List (Finset String), (∀ p ∈ l, ∃ a, p = {a}) →
      (l.map Finset.card).sum = l.length := by
    intro l
    induction l with
    | nil => intro _; rfl
    | cons p rest ih =>
      intro h
      rw [List.map_cons, List.sum_cons, ih (fun q hq => h q (List.mem_cons_of_mem _ hq)),
        List.length_cons]
      rcases h p (List.mem_cons_self _ _) with ⟨a, rfl⟩
      rw [Finset.card_singleton]
      omega
  have hlen : (minimizeParts dfa).length = dfa.states.card := by
    have hc := listUnion_card hpw
    rw [hU] at hc
    rw [hc, hsum _ hsing]
  calc (minimizeDFA dfa).states.card
      = ((minimizeParts dfa).map partName).toFinset.card := rfl
    _ = ((minimizeParts dfa).map partName).length := List.toFinset_card_of_nodup hnames
    _ = (minimizeParts dfa).length := List.length_map _ _
    _ = dfa.states.card := hlen

theorem minimizeDFA_preserves_minimal_count_witness :
    (minimizeDFA dfaSampleMin).states.card = dfaSampleMin.states.card :=
  minimizeDFA_preserves_minimal_count dfaSampleMin (by decide) (by decide) (by decide)
    (by
      intro s hs
      fin_cases hs
      · exact ⟨[], by decide⟩
      · exact ⟨["x"], by decide⟩)
    (by
      intro s₁ hs₁ s₂ hs₂ heq
      fin_cases hs₁ <;> fin_cases hs₂
      · rfl
      · exact absurd (heq []) (by decide)
      · exact absurd (heq []) (by decide)
      · rfl)

theorem faSuccessors_length_le (ts : List FATrans) (word : List Char) (cfg : String × Nat) :
    (faSuccessors ts word cfg).length ≤ ts.length :=
  List.length_filterMap_le _ _

theorem faSuccessors_inv (ts : List FATrans) (word : List Char) (V : Finset String)
    (hts : ∀ t ∈ ts, t.toState ∈ V) (cfg : String × Nat) (hpos : cfg.2 ≤ word.length) :
    ∀ c ∈ faSuccessors ts word cfg, c.1 ∈ V ∧ c.2 ≤ word.length := by
  intro c hc
  unfold faSuccessors at hc
  rcases List.mem_filterMap.mp hc with ⟨t, ht, hsome⟩
  by_cases h1 : t.fromState = cfg.1
  · rw [if_pos h1] at hsome
    by_cases h2 : t.label = "eps"
    · rw [if_pos h2] at hsome
      cases hsome
      exact ⟨hts t ht, hpos⟩
    · rw [if_neg h2] at hsome
      by_cases h3 : jsStartsWith word t.label cfg.2 = true
      · rw [if_pos h3] at hsome
        cases hsome
        refine ⟨hts t ht, ?_⟩
        unfold jsStartsWith at h3
        have hlen := (List.isPrefixOf_iff_prefix.mp h3).length_le
        rw [List.length_drop] at hlen
        simp only
        omega
      · rw [if_neg h3] at hsome
        exact absurd hsome (by simp)
  · rw [if_neg h1] at hsome
    exact absurd hsome (by simp)

theorem faStateUniv_start (m : FAModel) : m.startState ∈ faStateUniv m := by
  unfold faStateUniv
  have H : ∀ (l : List FATrans) (base : Finset String), ∀ x ∈ base,
      x ∈ l.foldr (fun t acc => insert t.toState acc) base := by
    intro l
    induction l with
    | nil => intro base x hx; exact hx
    | cons t rest ih => intro base x hx; exact Finset.mem_insert_of_mem (ih base x hx)
  exact H _ _ _ (Finset.mem_singleton_self _)

theorem faStateUniv_toState (m : FAModel) :
    ∀ t ∈ faTransitionsList m, t.toState ∈ faStateUniv m := by
  unfold faStateUniv
  have H : ∀ (l : List FATrans) (base : Finset String), ∀ t ∈ l,
      t.toState ∈ l.foldr (fun u acc => insert u.toState acc) base := by
    intro l
    induction l with
    | nil => intro base t ht; exact absurd ht (List.not_mem_nil _)
    | cons u rest ih =>
      intro base t ht
      rcases List.mem_cons.mp ht with rfl | hm
      · exact Finset.mem_insert_self _ _
      · exact Finset.mem_insert_of_mem (ih base t hm)
  exact H _ _

theorem evalFaLoop_fuel_eq (ts : List FATrans) (accept : Finset String) (word : List Char)
    (V : Finset String) (hts : ∀ t ∈ ts, t.toState ∈ V) :
    ∀ (fuel₁ fuel₂ : Nat) (queue : List (String × Nat)) (seen : Finset (String × Nat)),
      (∀ c ∈ queue, c.1 ∈ V ∧ c.2 ≤ word.length) →
      ((V ×ˢ Finset.range (word.length + 1)) \ seen).card * (ts.length + 1) + queue.length <
        fuel₁ →
      ((V ×ˢ Finset.range (word.length + 1)) \ seen).card * (ts.length + 1) + queue.length <
        fuel₂ →
      evalFaLoop ts accept word fuel₁ queue seen = evalFaLoop ts accept word fuel₂ queue seen := by
  intro fuel₁
  induction fuel₁ with
  | zero => intro fuel₂ queue seen _ h₁ _; omega
  | succ f₁ ih =>
    intro fuel₂ queue seen hq h₁ h₂
    cases fuel₂ with
    | zero => omega
    | succ g =>
      cases queue with
      | nil => simp only [evalFaLoop]
      | cons cfg rest =>
        rw [evalFaLoop, evalFaLoop]
        by_cases hm : cfg ∈ seen
        · rw [if_pos hm, if_pos hm]
          apply ih g rest seen (fun c hc => hq c (List.mem_cons_of_mem _ hc))
          · simp only [List.length_cons] at h₁; omega
          · simp only [List.length_cons] at h₂; omega
        · rw [if_neg hm, if_neg hm]
          simp only
          by_cases hacc : cfg.2 = word.length ∧ cfg.1 ∈ accept
          · rw [if_pos hacc, if_pos hacc]
          · rw [if_neg hacc, if_neg hacc]
            have hcfg := hq cfg (List.mem_cons_self _ _)
            have hcfgU : cfg ∈ V ×ˢ Finset.range (word.length + 1) :=
              Finset.mem_product.mpr ⟨hcfg.1, Finset.mem_range.mpr (by omega)⟩
            have hcard := sdiff_insert_card hcfgU hm
            have hsucc := faSuccessors_length_le ts word cfg
            refine ih g (rest ++ faSuccessors ts word cfg) (insert cfg seen) ?_ ?_ ?_
            · intro c hc
              rcases List.mem_append.mp hc with h | h
              · exact hq c (List.mem_cons_of_mem _ h)
              · exact faSuccessors_inv ts word V hts cfg hcfg.2 c h
            · rw [List.length_append]
              rw [← hcard, Nat.add_mul, Nat.one_mul] at h₁
              simp only [List.length_cons] at h₁
              omega
            · rw [List.length_append]
              rw [← hcard, Nat.add_mul, Nat.one_mul] at h₂
              simp only [List.length_cons] at h₂
              omega

theorem evaluateFA_fuel_sufficient (m : FAModel) (word : List Char) (fuel : Nat)
    (h : (faStateUniv m ×ˢ Finset.range (word.length + 1)).card *
      ((faTransitionsList m).length + 1) + 1 < fuel) :
    evaluateFA m word =
      evalFaLoop (faTransitionsList m) m.acceptStates word fuel [(m.startState, 0)] ∅ := by
  unfold evaluateFA
  apply evalFaLoop_fuel_eq (faTransitionsList m) m.acceptStates word (faStateUniv m)
    (faStateUniv_toState m)
  · intro c hc
    rw [List.mem_singleton] at hc
    subst hc
    exact ⟨faStateUniv_start m, Nat.zero_le _⟩
  · rw [Finset.sdiff_empty]
    simp only [List.length_cons, List.length_nil]
    omega
  · rw [Finset.sdiff_empty]
    simp only [List.length_cons, List.length_nil]
    omega
